import Mathlib

/-
Verification of the rule-resolution, merge, mirror and undo engine of the
Blender Vertex Group Renamer addon (vertex_group_renamer_v1-3-3.py).

Names are modelled as lists of characters. Python ordered dictionaries are
modelled as association lists (insertion order, unique keys); inserting an
existing key updates the value in place, which is exactly the semantics of
CPython dict assignment. Vertex weights are modelled as rational numbers,
standing for the exact values of the floating point computation.
-/

set_option maxHeartbeats 1000000

namespace VGR

abbrev Name := List Char

/-- Model of Python str.lower applied to a name. -/
def lowerName (n : Name) : Name := n.map Char.toLower

/-- Model of Python str.startswith: does n start with p. -/
def nameStartsWith (n p : Name) : Bool := p.isPrefixOf n

/-- Literal token "L_" used by mirror_names. -/
def lTok : Name := ['L', '_']

/-- Literal token "R_" used by mirror_names. -/
def rTok : Name := ['R', '_']

/-- Literal token "__swap_temp__" used by mirror_names. -/
def swapTempTok : Name := "__swap_temp__".toList

/-- Transient name used in phase 1 of mirror_names. -/
def swapTempName (n : Name) : Name := swapTempTok ++ n

/-- Transient group name used by merge_vertex_groups. -/
def tempMergeName (t : Name) : Name := "__temp_merge_".toList ++ t ++ "__".toList

-- ============================
-- Association list helpers (Python dict semantics)
-- ============================

/-- Lookup in an insertion-ordered dictionary: first entry with the key. -/
def alookup {α : Type} : List (Name × α) → Name → Option α
  | [], _ => none
  | (k, v) :: rest, k' => if k = k' then some v else alookup rest k'

/-- Keys of an insertion-ordered dictionary. -/
def keysOf {α : Type} (d : List (Name × α)) : List Name := d.map Prod.fst

/-- Python dict assignment d[k] = v: update in place if k is present,
otherwise append at the end. -/
def insertOrUpdate {α : Type} : List (Name × α) → Name → α → List (Name × α)
  | [], k, v => [(k, v)]
  | (k', v') :: rest, k, v =>
      if k' = k then (k', v) :: rest else (k', v') :: insertOrUpdate rest k v

/-- Remove the first entry with the given key, if any (Python del / collection
remove by reference after a get by name). -/
def removeFirstG {α : Type} : List (Name × α) → Name → List (Name × α)
  | [], _ => []
  | (k', v') :: rest, k =>
      if k' = k then rest else (k', v') :: removeFirstG rest k

/-- Rename the first element equal to a to b (collection.get(a) followed by
assignment to its name attribute; no-op when absent). -/
def renameFirst : List Name → Name → Name → List Name
  | [], _, _ => []
  | x :: xs, a, b => if x = a then b :: xs else x :: renameFirst xs a b

/-- Rename the first entry whose key is a to key b, keeping its payload. -/
def renameFirstG {α : Type} : List (Name × α) → Name → Name → List (Name × α)
  | [], _, _ => []
  | (k, v) :: rest, a, b =>
      if k = a then (b, v) :: rest else (k, v) :: renameFirstG rest a b

-- ============================
-- Rule Store operations
-- ============================

/-- A ruleset: ordered mapping old name to new name (one per prefix). -/
abbrev RS := List (Name × Name)

/-- Translation of rename_key_in_ordered_dict (source lines 71-78): rebuild
the dictionary, writing new_key in place of old_key at its position. -/
def rename_key_in_ordered_dict (d : RS) (oldKey newKey : Name) : RS :=
  d.foldl
    (fun nd kv =>
      if kv.1 = oldKey then insertOrUpdate nd newKey kv.2
      else insertOrUpdate nd kv.1 kv.2)
    []

/-- Translation of the update closure produced by make_rule_update_func
(source lines 135-157), acting on one ruleset. original and newName are the
rule key and value captured at registration time; newOriginal and newNew are
the edited field contents. A colliding key edit is rejected and the ruleset
is left unchanged (the UI fields are reset to the prior key and value). -/
def update_rule (d : RS) (original newName newOriginal newNew : Name) : RS :=
  if newOriginal = original ∧ newNew = newName then d
  else if (alookup d newOriginal).isSome ∧ newOriginal ≠ original then d
  else insertOrUpdate (rename_key_in_ordered_dict d original newOriginal) newOriginal newNew

/-- Result of a Blender operator execute call. -/
inductive OpStatus : Type
  | finished
  | cancelled
deriving DecidableEq

/-- The distinguished protected preset name. -/
def defaultPresetName : Name := "Default".toList

/-- Translation of OBJECT_OT_remove_preset.execute (source lines 649-667):
the store of presets together with the operator status. Deleting the
Default preset or the last remaining preset is refused. -/
def remove_preset {α : Type} (store : List (Name × α)) (current : Name) :
    List (Name × α) × OpStatus :=
  if (alookup store current).isSome then
    if current = defaultPresetName then (store, .cancelled)
    else if store.length = 1 then (store, .cancelled)
    else (removeFirstG store current, .finished)
  else (store, .finished)

-- ============================
-- Prefix resolution (source lines 784-794 and the identical copies)
-- ============================

/-- A preset: ordered mapping of prefix string to ruleset. -/
abbrev RuleTable := List (Name × RS)

/-- Translation of the prefix-selection loop of
OBJECT_OT_rename_vertex_groups.execute (lines 784-794): scan the stored
prefixes in order, the first non-empty prefix that is a case-insensitive
prefix of the container name wins; fall back to the empty prefix when
present; otherwise none. -/
def matchedPfx (objName : Name) (table : RuleTable) : Option Name :=
  match table.find? (fun p =>
      decide (p.1 ≠ []) && nameStartsWith (lowerName objName) (lowerName p.1)) with
  | some p => some p.1
  | none =>
      if (table.find? (fun p => decide (p.1 = []))).isSome then some ([] : Name)
      else none

/-- Modelled from the spec (section 4.2): iterate the non-empty prefixes of
the table in stored order and take the head of the matching ones; if none
match, fall back to the empty prefix when it is a stored key; otherwise no
ruleset is selected. Stated over the key list to contrast with the
find-based loop of the source. -/
def matchedPfxSpec (objName : Name) (table : RuleTable) : Option Name :=
  match (table.map Prod.fst).filter (fun p =>
      decide (p ≠ []) && nameStartsWith (lowerName objName) (lowerName p)) with
  | p :: _ => some p
  | [] => if ([] : Name) ∈ table.map Prod.fst then some ([] : Name) else none

-- ============================
-- WeightedGroupSet model and merge_vertex_groups (source lines 222-291)
-- ============================

/-- Per-vertex weights of one vertex group, as an association list from
vertex index to weight. A vertex absent from the list is not a member of
the group; its weight reads as 0 (the try/except RuntimeError pattern of
the source). -/
abbrev Weights := List (Nat × ℚ)

/-- Weight of a vertex in a group; missing membership reads as 0. -/
def wlookup : Weights → Nat → ℚ
  | [], _ => 0
  | (i, w) :: rest, v => if i = v then w else wlookup rest v

/-- A mesh for the purposes of the engine: its vertex indices and its named
vertex groups in creation order. -/
structure MeshState : Type where
  verts : List Nat
  groups : List (Name × Weights)
deriving DecidableEq

/-- Names of the vertex groups of a mesh, in order. -/
def vgNames (s : MeshState) : List Name := s.groups.map Prod.fst

/-- Weight of vertex v in the first group named g, 0 if absent. -/
def groupWeight (s : MeshState) (g : Name) (v : Nat) : ℚ :=
  match s.groups.find? (fun p => p.1 = g) with
  | some p => wlookup p.2 v
  | none => 0

/-- Weight of vertex v in the group at position i, 0 when out of range. -/
def groupWeightAt (s : MeshState) (i : Nat) (v : Nat) : ℚ :=
  match s.groups[i]? with
  | some p => wlookup p.2 v
  | none => 0

/-- Name of the group at position i. -/
def groupNameAt (s : MeshState) (i : Nat) : Option Name :=
  (s.groups[i]?).map Prod.fst

/-- Total weight of vertex v summed over all vertex groups. -/
def totalWeight (s : MeshState) (v : Nat) : ℚ :=
  (s.groups.map (fun p => wlookup p.2 v)).sum

/-- Summed weight of vertex v over the listed source groups, a source name
with no group contributing nothing (weight treated as 0.0). This is the
value accumulated into vertex_weight_sum by merge_vertex_groups. -/
def preMergeSum (s : MeshState) (sources : List Name) (v : Nat) : ℚ :=
  (sources.map (fun gn =>
    match s.groups.find? (fun p => p.1 = gn) with
    | some p => wlookup p.2 v
    | none => 0)).sum

/-- Accumulation part of merge_vertex_groups (lines 230-265): create the
temporary group, sum the source weights into it per vertex, remove the
source groups, and rename the temporary group to the target name. The
temporary group is created by appending at the end of the collection, so
after the removals and the rename the collection is the remaining groups
followed by the target group. -/
def mergeAccum (s : MeshState) (target : Name) (sources : List Name) : MeshState :=
  { verts := s.verts
    groups :=
      (sources.foldl (fun gs gn => removeFirstG gs gn) s.groups) ++
        [(target, s.verts.map (fun v => (v, preMergeSum s sources v)))] }

/-- Normalization step of merge_vertex_groups (lines 267-291): for every
vertex of the mesh, sum its weights over all groups; when the total exceeds
1.0 replace every weight of that vertex by weight divided by the total. -/
def normalizePass (s : MeshState) : MeshState :=
  { verts := s.verts
    groups := s.groups.map (fun p =>
      (p.1, s.verts.map (fun v =>
        (v, if 1 < totalWeight s v then wlookup p.2 v / totalWeight s v
            else wlookup p.2 v)))) }

/-- Translation of merge_vertex_groups (lines 222-291): no-op on an empty
source list, otherwise the accumulation followed by the normalization
pass. -/
def merge_vertex_groups (s : MeshState) (target : Name) (sources : List Name) : MeshState :=
  if sources = [] then s else normalizePass (mergeAccum s target sources)

-- ============================
-- Apply and undo on a WeightedGroupSet
-- (source lines 796-820 and 910-917)
-- ============================

/-- Appending a source name to the bucket of its target inside the
new_to_sources dictionary (lines 799-806): Python dict semantics, the
bucket keeps its insertion position. -/
def addToBucket (acc : List (Name × List Name)) (t : Name) (src : Name) :
    List (Name × List Name) :=
  match acc with
  | [] => [(t, [src])]
  | (t', l) :: rest =>
      if t' = t then (t', l ++ [src]) :: rest
      else (t', l) :: addToBucket rest t src

/-- The new_to_sources mapping of OBJECT_OT_rename_vertex_groups.execute
(lines 798-806): bucket the current group names by their target under the
resolved ruleset. -/
def vgBuckets (s : MeshState) (rules : RS) : List (Name × List Name) :=
  s.groups.foldl
    (fun acc g =>
      match alookup rules g.1 with
      | some t => addToBucket acc t g.1
      | none => acc)
    []

/-- Single-rename branch of the bucket loop (lines 815-820): fetch the
group by its old name and rename it when the target differs. -/
def renameStep (s : MeshState) (src t : Name) : MeshState :=
  { s with groups := renameFirstG s.groups src t }

/-- The bucket-processing loop of OBJECT_OT_rename_vertex_groups.execute
(lines 808-820), instrumented with a counter of executed normalization
passes: each call to merge_vertex_groups with a non-empty source list runs
the normalization pass exactly once, at its end. -/
def applyRulesRun (s : MeshState) (rules : RS) : MeshState × Nat :=
  (vgBuckets s rules).foldl
    (fun st b =>
      match b.2 with
      | [] => st
      | [src] => (renameStep st.1 src b.1, st.2)
      | srcs => (merge_vertex_groups st.1 b.1 srcs, st.2 + 1))
    (s, 0)

/-- Application of a resolved ruleset to the vertex groups of one mesh. -/
def applyRules (s : MeshState) (rules : RS) : MeshState :=
  (applyRulesRun s rules).1

/-- Number of normalization passes executed by one application of a
ruleset to one mesh. -/
def normPassCount (s : MeshState) (rules : RS) : Nat :=
  (applyRulesRun s rules).2

/-- The per-mesh body of OBJECT_OT_rename_vertex_groups.execute
(lines 784-820): resolve the ruleset from the mesh name, apply it, or leave
the mesh untouched when no prefix matches. -/
def apply_rename_rules (meshName : Name) (s : MeshState) (table : RuleTable) : MeshState :=
  match matchedPfx meshName table with
  | some p =>
      match alookup table p with
      | some rules => applyRules s rules
      | none => s
  | none => s

/-- The reverse_rules dictionary of OBJECT_OT_undo_vertex_group_rename
(line 912): Python dict comprehension over the rule pairs, later pairs
overwriting earlier ones on a duplicated new name. -/
def reverseRules (rules : RS) : RS :=
  rules.foldl (fun acc p => insertOrUpdate acc p.2 p.1) []

/-- The per-mesh body of OBJECT_OT_undo_vertex_group_rename.execute
(lines 910-917): every group whose current name is a value of the ruleset
is renamed back to the recorded old name. -/
def undoRules (s : MeshState) (rules : RS) : MeshState :=
  { s with
    groups := s.groups.map (fun g =>
      match alookup (reverseRules rules) g.1 with
      | some original => (original, g.2)
      | none => g) }

-- ============================
-- mirror_names (source lines 325-364)
-- ============================

/-- The pair-detection loop of mirror_names (lines 337-346): a name
starting with the literal token L underscore whose R counterpart is among
the names yields the ordered pair (name, counterpart), and symmetrically;
each two-sided pair therefore appears twice, once from each side. -/
def mirrorPairs (names : List Name) : List (Name × Name) :=
  names.filterMap (fun n =>
    if nameStartsWith n lTok then
      let cp := rTok ++ n.drop 2
      if cp ∈ names then some (n, cp) else none
    else if nameStartsWith n rTok then
      let cp := lTok ++ n.drop 2
      if cp ∈ names then some (n, cp) else none
    else none)

/-- Translation of mirror_names (lines 325-364): three passes over the
detected pairs, each renaming the first member carrying the looked-up
name, exactly as collection.get followed by a name assignment. -/
def mirror_names (names : List Name) : List Name :=
  (mirrorPairs names).foldl (fun l p => renameFirst l (swapTempName p.2) p.2)
    ((mirrorPairs names).foldl (fun l p => renameFirst l p.2 p.1)
      ((mirrorPairs names).foldl (fun l p => renameFirst l p.1 (swapTempName p.2))
        names))

/-- Swap of the L and R tokens on a single name, identity on names
starting with neither token. -/
def swapLR (n : Name) : Name :=
  if nameStartsWith n lTok then rTok ++ n.drop 2
  else if nameStartsWith n rTok then lTok ++ n.drop 2
  else n

/-- Does this name form a two-sided mirror pair within the name list. -/
def lrPaired (names : List Name) (n : Name) : Bool :=
  if nameStartsWith n lTok then decide ((rTok ++ n.drop 2) ∈ names)
  else if nameStartsWith n rTok then decide ((lTok ++ n.drop 2) ∈ names)
  else false

/-- Intended effect of mirror on one name: swapped when its counterpart
exists, untouched otherwise. -/
def swapIfPaired (names : List Name) (n : Name) : Name :=
  if lrPaired names n then swapLR n else n

-- ============================
-- Scene model, bone operators and synchronization
-- (source lines 184-216, 293-323, 944-1021)
-- ============================

/-- A mesh object of the scene: its object name, vertex group names, and
the armature objects referenced by its armature modifiers, in modifier
order. -/
structure MeshObj : Type where
  name : Name
  groups : List Name
  arms : List Name
deriving DecidableEq

/-- An armature object of the scene: its object name and bone names. -/
structure ArmObj : Type where
  name : Name
  bones : List Name
deriving DecidableEq

/-- The scene: all mesh objects and all armature objects. -/
structure Scene : Type where
  meshes : List MeshObj
  armatures : List ArmObj
deriving DecidableEq

/-- Translation of get_meshes_from_armatures (lines 201-216): for each
armature, the meshes carrying an armature modifier referencing it, one
entry per matching modifier; armatures with no linked mesh are omitted. -/
def get_meshes_from_armatures (scene : Scene) (armNames : List Name) :
    List (Name × List Name) :=
  armNames.foldl
    (fun acc an =>
      let ms := scene.meshes.foldl
        (fun l m => l ++ (m.arms.filter (fun a => a = an)).map (fun _ => m.name)) []
      if ms = [] then acc else acc ++ [(an, ms)])
    []

/-- Remove the first occurrence of a name from a name list (collection.get
by name followed by remove; no-op when absent). -/
def removeFirstName : List Name → Name → List Name
  | [], _ => []
  | x :: xs, a => if x = a then xs else x :: removeFirstName xs a

/-- Name-level effect of merge_bones (lines 293-323): the temporary bone is
created at the end, the source bones are removed, and the temporary bone is
renamed to the target; positional data is irrelevant to the claims. -/
def mergeBoneNames (bones : List Name) (target : Name) (sources : List Name) :
    List Name :=
  if sources = [] then bones
  else (sources.foldl (fun bs bn => removeFirstName bs bn) bones) ++ [target]

/-- Bucket the bone names by target and process the buckets, the bone
analogue of the vertex-group loop (lines 992-1014). -/
def applyRulesBones (bones : List Name) (rules : RS) : List Name :=
  let buckets := bones.foldl
    (fun acc bn =>
      match alookup rules bn with
      | some t => addToBucket acc t bn
      | none => acc)
    []
  buckets.foldl
    (fun bs b =>
      match b.2 with
      | [] => bs
      | [src] => renameFirst bs src b.1
      | srcs => mergeBoneNames bs b.1 srcs)
    bones

/-- Update the armature with the given name, leaving the rest of the scene
unchanged. -/
def updateArm (scene : Scene) (an : Name) (f : List Name → List Name) : Scene :=
  { scene with
    armatures := scene.armatures.map (fun a =>
      if a.name = an then { a with bones := f a.bones } else a) }

/-- Translation of OBJECT_OT_rename_bones.execute (source lines 949-1021)
for a selection of armatures given by name, with the synchronization flag.
When synchronization is enabled the operator computes the armature-to-mesh
linkage, but the ambiguity rejection (lines 966-967) and the propagation of
the ruleset to the linked vertex groups (lines 1016-1019) are both
commented out in the source, so neither has any effect: bones are renamed
per armature by prefix resolution on the armature object name, and the
meshes of the scene are never modified. -/
def rename_bones_execute (scene : Scene) (selected : List Name)
    (table : RuleTable) (_syncGroupBone : Bool) : Scene × OpStatus :=
  let selArms := scene.armatures.filter (fun a => a.name ∈ selected)
  if selArms = [] then (scene, .cancelled)
  else
    let scene' := selArms.foldl
      (fun sc a =>
        match matchedPfx a.name table with
        | some p =>
            match alookup table p with
            | some rules => updateArm sc a.name (fun bs => applyRulesBones bs rules)
            | none => sc
        | none => sc)
      scene
    (scene', .finished)

-- ============================
-- Generic lemmas
-- ============================

theorem mapCongrMem {α β : Type} (l : List α) (f g : α → β)
    (h : ∀ x ∈ l, f x = g x) : l.map f = l.map g := by
  induction l with
  | nil => rfl
  | cons x xs ih =>
      simp only [List.map_cons]
      rw [h x (List.mem_cons_self x xs),
        ih (fun y hy => h y (List.mem_cons_of_mem _ hy))]

theorem renameFirst_of_not_mem : ∀ (l : List Name) (a b : Name), a ∉ l →
    renameFirst l a b = l
  | [], _, _, _ => rfl
  | x :: xs, a, b, h => by
      have hx : ¬ x = a := fun e => h (e ▸ List.mem_cons_self x xs)
      simp only [renameFirst, if_neg hx]
      rw [renameFirst_of_not_mem xs a b (fun hm => h (List.mem_cons_of_mem _ hm))]

/-- Renaming the first occurrence inside a mapped list, when the images of
distinct elements can hit the looked-up name at most once, acts as a
pointwise update of the mapping function. -/
theorem renameFirst_map (l : List Name) (f g : Name → Name) (a b : Name)
    (hnd : l.Nodup)
    (h1 : ∀ m ∈ l, f m = a → g m = b)
    (h2 : ∀ m ∈ l, f m ≠ a → g m = f m)
    (huniq : ∀ m ∈ l, ∀ m' ∈ l, f m = a → f m' = a → m = m') :
    renameFirst (l.map f) a b = l.map g := by
  induction l with
  | nil => rfl
  | cons x xs ih =>
      have hxmem : x ∈ x :: xs := List.mem_cons_self x xs
      by_cases hx : f x = a
      · simp only [List.map_cons, renameFirst, if_pos hx]
        rw [h1 x hxmem hx]
        have htail : ∀ m ∈ xs, f m ≠ a := by
          intro m hm he
          have hmx : m = x := huniq m (List.mem_cons_of_mem _ hm) x hxmem he hx
          exact ((List.nodup_cons.mp hnd).1) (hmx ▸ hm)
        have : xs.map f = xs.map g :=
          mapCongrMem xs f g
            (fun m hm => (h2 m (List.mem_cons_of_mem _ hm) (htail m hm)).symm)
        rw [this]
      · simp only [List.map_cons, renameFirst, if_neg hx]
        rw [h2 x hxmem hx]
        rw [ih (List.nodup_cons.mp hnd).2
          (fun m hm => h1 m (List.mem_cons_of_mem _ hm))
          (fun m hm => h2 m (List.mem_cons_of_mem _ hm))
          (fun m hm m' hm' => huniq m (List.mem_cons_of_mem _ hm)
            m' (List.mem_cons_of_mem _ hm'))]

-- ============================
-- Token and swap lemmas
-- ============================

theorem nameStartsWith_append (p t : Name) : nameStartsWith (p ++ t) p = true := by
  rw [nameStartsWith, List.isPrefixOf_iff_prefix]
  exact ⟨t, rfl⟩

theorem append_drop_of_startsWith {n p : Name} (h : nameStartsWith n p = true) :
    p ++ n.drop p.length = n := by
  rcases List.isPrefixOf_iff_prefix.mp h with ⟨t, rfl⟩
  rw [List.drop_left]

theorem cons_of_startsWith {n : Name} {c : Char} {p : Name}
    (h : nameStartsWith n (c :: p) = true) : ∃ t, n = c :: t := by
  rcases List.isPrefixOf_iff_prefix.mp h with ⟨t, rfl⟩
  exact ⟨p ++ t, by simp⟩

theorem startsWith_head {n : Name} (c d : Char) (p q : Name)
    (h : nameStartsWith n (c :: p) = true) (hne : d ≠ c) :
    nameStartsWith n (d :: q) = false := by
  rcases cons_of_startsWith h with ⟨t, rfl⟩
  cases hnb : nameStartsWith (c :: t) (d :: q) with
  | false => rfl
  | true =>
      rcases cons_of_startsWith hnb with ⟨t2, ht2⟩
      exact absurd (List.cons.inj ht2).1.symm hne

theorem rTok_not_lTok (x : Name) : nameStartsWith (rTok ++ x) lTok = false :=
  startsWith_head 'R' 'L' ['_'] ['_']
    (nameStartsWith_append rTok x) (by decide)

theorem lTok_not_rTok (x : Name) : nameStartsWith (lTok ++ x) rTok = false :=
  startsWith_head 'L' 'R' ['_'] ['_']
    (nameStartsWith_append lTok x) (by decide)

theorem rTok_not_temp (x : Name) : nameStartsWith (rTok ++ x) swapTempTok = false :=
  startsWith_head 'R' '_' ['_'] "_swap_temp__".toList
    (nameStartsWith_append rTok x) (by decide)

theorem lTok_not_temp (x : Name) : nameStartsWith (lTok ++ x) swapTempTok = false :=
  startsWith_head 'L' '_' ['_'] "_swap_temp__".toList
    (nameStartsWith_append lTok x) (by decide)

theorem not_l_of_r {n : Name} (hr : nameStartsWith n rTok = true) :
    nameStartsWith n lTok = false :=
  startsWith_head 'R' 'L' ['_'] ['_'] hr (by decide)

theorem not_r_of_l {n : Name} (hl : nameStartsWith n lTok = true) :
    nameStartsWith n rTok = false :=
  startsWith_head 'L' 'R' ['_'] ['_'] hl (by decide)

theorem swapTempName_startsWith (x : Name) :
    nameStartsWith (swapTempName x) swapTempTok = true :=
  nameStartsWith_append swapTempTok x

theorem swapTempName_inj {x y : Name} (h : swapTempName x = swapTempName y) :
    x = y :=
  List.append_cancel_left h

theorem swapLR_of_l {n : Name} (h : nameStartsWith n lTok = true) :
    swapLR n = rTok ++ n.drop 2 := by
  simp [swapLR, h]

theorem swapLR_of_r {n : Name} (h : nameStartsWith n rTok = true) :
    swapLR n = lTok ++ n.drop 2 := by
  simp [swapLR, not_l_of_r h, h]

theorem swapLR_invol {n : Name}
    (h : nameStartsWith n lTok = true ∨ nameStartsWith n rTok = true) :
    swapLR (swapLR n) = n := by
  rcases h with h | h
  · rw [swapLR_of_l h, swapLR_of_r (nameStartsWith_append rTok (n.drop 2))]
    exact append_drop_of_startsWith h
  · rw [swapLR_of_r h, swapLR_of_l (nameStartsWith_append lTok (n.drop 2))]
    exact append_drop_of_startsWith h

theorem l_append_drop {n : Name} (h : nameStartsWith n lTok = true) :
    lTok ++ n.drop 2 = n :=
  append_drop_of_startsWith h

theorem r_append_drop {n : Name} (h : nameStartsWith n rTok = true) :
    rTok ++ n.drop 2 = n :=
  append_drop_of_startsWith h

theorem lrPaired_tok {names : List Name} {n : Name} (h : lrPaired names n = true) :
    nameStartsWith n lTok = true ∨ nameStartsWith n rTok = true := by
  by_cases hl : nameStartsWith n lTok = true
  · exact Or.inl hl
  · by_cases hr : nameStartsWith n rTok = true
    · exact Or.inr hr
    · simp only [lrPaired, if_neg hl, if_neg hr] at h
      exact absurd h (by decide)

theorem lrPaired_swapLR_mem {names : List Name} {n : Name}
    (h : lrPaired names n = true) : swapLR n ∈ names := by
  rcases lrPaired_tok h with hl | hr
  · rw [swapLR_of_l hl]
    simpa [lrPaired, hl] using h
  · rw [swapLR_of_r hr]
    simpa [lrPaired, not_l_of_r hr, hr] using h

theorem lrPaired_swapLR {names : List Name} {n : Name}
    (hmem : n ∈ names) (h : lrPaired names n = true) :
    lrPaired names (swapLR n) = true := by
  rcases lrPaired_tok h with hl | hr
  · rw [swapLR_of_l hl, lrPaired, if_neg (by simp [rTok_not_lTok]),
      if_pos (nameStartsWith_append rTok (n.drop 2))]
    have hd : List.drop 2 (rTok ++ List.drop 2 n) = List.drop 2 n := rfl
    rw [hd, l_append_drop hl]
    exact decide_eq_true hmem
  · rw [swapLR_of_r hr, lrPaired,
      if_pos (nameStartsWith_append lTok (n.drop 2))]
    have hd : List.drop 2 (lTok ++ List.drop 2 n) = List.drop 2 n := rfl
    rw [hd, r_append_drop hr]
    exact decide_eq_true hmem

theorem swapLR_not_temp {n : Name}
    (h : nameStartsWith n lTok = true ∨ nameStartsWith n rTok = true) :
    nameStartsWith (swapLR n) swapTempTok = false := by
  rcases h with hl | hr
  · rw [swapLR_of_l hl]; exact rTok_not_temp _
  · rw [swapLR_of_r hr]; exact lTok_not_temp _

-- ============================
-- Mirror characterization
-- ============================

theorem filterMap_guard {α γ : Type} (p : α → Bool) (f : α → γ) (l : List α) :
    l.filterMap (fun n => if p n then some (f n) else none) = (l.filter p).map f := by
  induction l with
  | nil => rfl
  | cons x xs ih =>
      by_cases hp : p x = true
      · simp [List.filterMap_cons, List.filter_cons, hp, ih]
      · simp [List.filterMap_cons, List.filter_cons, hp, ih]

theorem mirrorPairsFun_eq (names : List Name) (n : Name) :
    (if nameStartsWith n lTok then
        let cp := rTok ++ n.drop 2
        if cp ∈ names then some (n, cp) else none
      else if nameStartsWith n rTok then
        let cp := lTok ++ n.drop 2
        if cp ∈ names then some (n, cp) else none
      else none)
    = if lrPaired names n then some (n, swapLR n) else none := by
  by_cases hl : nameStartsWith n lTok = true
  · by_cases hm : (rTok ++ n.drop 2) ∈ names
    · simp [lrPaired, swapLR, hl, hm]
    · simp [lrPaired, swapLR, hl, hm]
  · by_cases hr : nameStartsWith n rTok = true
    · by_cases hm : (lTok ++ n.drop 2) ∈ names
      · simp [lrPaired, swapLR, hl, hr, hm]
      · simp [lrPaired, swapLR, hl, hr, hm]
    · simp [lrPaired, swapLR, hl, hr]

/-- The detected pair list is exactly the paired names, in order, each
tupled with its swapped counterpart. -/
theorem mirrorPairs_eq (names : List Name) :
    mirrorPairs names
      = (names.filter (lrPaired names)).map (fun n => (n, swapLR n)) := by
  rw [mirrorPairs]
  rw [show (fun n =>
      if nameStartsWith n lTok then
        let cp := rTok ++ n.drop 2
        if cp ∈ names then some (n, cp) else none
      else if nameStartsWith n rTok then
        let cp := lTok ++ n.drop 2
        if cp ∈ names then some (n, cp) else none
      else none)
    = (fun n => if lrPaired names n then some (n, swapLR n) else none)
    from funext (mirrorPairsFun_eq names)]
  exact filterMap_guard (lrPaired names) (fun n => (n, swapLR n)) names

theorem mem_mirrorPairs {names : List Name} {p : Name × Name}
    (h : p ∈ mirrorPairs names) :
    p.1 ∈ names ∧ lrPaired names p.1 = true ∧ p.2 = swapLR p.1 := by
  rw [mirrorPairs_eq] at h
  rcases List.mem_map.mp h with ⟨n, hn, rfl⟩
  have hf := List.mem_filter.mp hn
  exact ⟨hf.1, hf.2, rfl⟩

theorem mirrorPairs_fst (names : List Name) :
    (mirrorPairs names).map Prod.fst = names.filter (lrPaired names) := by
  rw [mirrorPairs_eq, List.map_map,
    mapCongrMem (names.filter (lrPaired names))
      (Prod.fst ∘ fun n => (n, swapLR n)) (fun n => n) (fun x _ => rfl)]
  simp

/-- State of a name after phase 1 has processed the pairs whose first
components are S: paired names already processed carry their transient
name, everything else is untouched. -/
def mirrorF1 (S : List Name) (n : Name) : Name :=
  if n ∈ S then swapTempName (swapLR n) else n

/-- State of a name during phase 3, P being all paired names and S the
already processed ones: processed names carry their final swapped name,
the rest still carry their phase 1 state. -/
def mirrorF3 (P S : List Name) (n : Name) : Name :=
  if n ∈ S then swapLR n else mirrorF1 P n

theorem mirrorPhase1 (names : List Name) (hnd : names.Nodup)
    (htemp : ∀ n ∈ names, nameStartsWith n swapTempTok = false) :
    ∀ (ps done : List (Name × Name)), mirrorPairs names = done ++ ps →
      ps.foldl (fun l p => renameFirst l p.1 (swapTempName p.2))
          (names.map (mirrorF1 (done.map Prod.fst)))
        = names.map (mirrorF1 ((done ++ ps).map Prod.fst)) := by
  intro ps
  induction ps with
  | nil => intro done h; rw [List.append_nil, List.foldl_nil]
  | cons p ps' ih =>
      intro done hsplit
      have hfst : names.filter (lrPaired names)
          = done.map Prod.fst ++ p.1 :: ps'.map Prod.fst := by
        rw [← mirrorPairs_fst, hsplit]; simp
      have hPnd : (names.filter (lrPaired names)).Nodup := hnd.filter _
      have hn1P : p.1 ∈ names.filter (lrPaired names) := by
        rw [hfst]; exact List.mem_append_right _ (List.mem_cons_self _ _)
      have hn1mem : p.1 ∈ names := (List.mem_filter.mp hn1P).1
      have hn1S : p.1 ∉ done.map Prod.fst := by
        intro hc
        rw [hfst] at hPnd
        exact (List.nodup_append.mp hPnd).2.2 hc (List.mem_cons_self _ _)
      have hpairs : p ∈ mirrorPairs names := by
        rw [hsplit]; exact List.mem_append_right _ (List.mem_cons_self _ _)
      have hn2 : p.2 = swapLR p.1 := (mem_mirrorPairs hpairs).2.2
      have hchar : ∀ m ∈ names, mirrorF1 (done.map Prod.fst) m = p.1 → m = p.1 := by
        intro m hm he
        by_cases hmS : m ∈ done.map Prod.fst
        · exfalso
          rw [mirrorF1, if_pos hmS] at he
          have hsw := swapTempName_startsWith (swapLR m)
          rw [he, htemp p.1 hn1mem] at hsw
          exact absurd hsw (by decide)
        · rw [mirrorF1, if_neg hmS] at he
          exact he
      have hstep : renameFirst (names.map (mirrorF1 (done.map Prod.fst)))
          p.1 (swapTempName p.2)
          = names.map (mirrorF1 (done.map Prod.fst ++ [p.1])) := by
        apply renameFirst_map names _ _ p.1 (swapTempName p.2) hnd
        · intro m hm he
          have hm1 := hchar m hm he
          subst hm1
          rw [mirrorF1, if_pos (List.mem_append_right _ (List.mem_cons_self _ _)),
            hn2]
        · intro m hm he
          by_cases hmS : m ∈ done.map Prod.fst
          · rw [mirrorF1, if_pos (List.mem_append_left _ hmS), mirrorF1,
              if_pos hmS]
          · have hmne : m ≠ p.1 := by
              intro hc
              exact he (by rw [mirrorF1, if_neg hmS]; exact hc)
            rw [mirrorF1, if_neg (by
              intro hc
              rcases List.mem_append.mp hc with hc | hc
              · exact hmS hc
              · exact hmne (List.mem_singleton.mp hc)), mirrorF1, if_neg hmS]
        · intro m hm m' hm' he he'
          rw [hchar m hm he, hchar m' hm' he']
      have hmap : List.map Prod.fst done ++ [p.1] = List.map Prod.fst (done ++ [p]) := by
        simp
      rw [List.foldl_cons, hstep, hmap,
        ih (done ++ [p]) (by rw [hsplit]; simp)]
      congr 1
      simp

theorem mirrorPhase2 (names : List Name)
    (htemp : ∀ n ∈ names, nameStartsWith n swapTempTok = false) :
    ∀ ps : List (Name × Name), (∀ p ∈ ps, p ∈ mirrorPairs names) →
      ps.foldl (fun l p => renameFirst l p.2 p.1)
          (names.map (mirrorF1 (names.filter (lrPaired names))))
        = names.map (mirrorF1 (names.filter (lrPaired names))) := by
  intro ps
  induction ps with
  | nil => intro _; rfl
  | cons p ps' ih =>
      intro hps
      have hp := mem_mirrorPairs (hps p (List.mem_cons_self _ _))
      have hp2mem : p.2 ∈ names := hp.2.2 ▸ lrPaired_swapLR_mem hp.2.1
      have hp2pair : lrPaired names p.2 = true :=
        hp.2.2 ▸ lrPaired_swapLR hp.1 hp.2.1
      have hnot : p.2 ∉ names.map (mirrorF1 (names.filter (lrPaired names))) := by
        intro hc
        rcases List.mem_map.mp hc with ⟨m, hm, he⟩
        by_cases hmP : m ∈ names.filter (lrPaired names)
        · rw [mirrorF1, if_pos hmP] at he
          have hsw := swapTempName_startsWith (swapLR m)
          rw [he, htemp p.2 hp2mem] at hsw
          exact absurd hsw (by decide)
        · rw [mirrorF1, if_neg hmP] at he
          exact hmP (he ▸ List.mem_filter.mpr ⟨hp2mem, hp2pair⟩)
      rw [List.foldl_cons, renameFirst_of_not_mem _ _ _ hnot]
      exact ih (fun q hq => hps q (List.mem_cons_of_mem _ hq))

theorem mirrorPhase3 (names : List Name) (hnd : names.Nodup)
    (htemp : ∀ n ∈ names, nameStartsWith n swapTempTok = false) :
    ∀ (ps done : List (Name × Name)), mirrorPairs names = done ++ ps →
      ps.foldl (fun l p => renameFirst l (swapTempName p.2) p.2)
          (names.map (mirrorF3 (names.filter (lrPaired names)) (done.map Prod.fst)))
        = names.map (mirrorF3 (names.filter (lrPaired names))
            ((done ++ ps).map Prod.fst)) := by
  intro ps
  induction ps with
  | nil => intro done h; rw [List.append_nil, List.foldl_nil]
  | cons p ps' ih =>
      intro done hsplit
      have hfst : names.filter (lrPaired names)
          = done.map Prod.fst ++ p.1 :: ps'.map Prod.fst := by
        rw [← mirrorPairs_fst, hsplit]; simp
      have hPnd : (names.filter (lrPaired names)).Nodup := hnd.filter _
      have hn1P : p.1 ∈ names.filter (lrPaired names) := by
        rw [hfst]; exact List.mem_append_right _ (List.mem_cons_self _ _)
      have hn1mem : p.1 ∈ names := (List.mem_filter.mp hn1P).1
      have hn1pair : lrPaired names p.1 = true := (List.mem_filter.mp hn1P).2
      have hn1S : p.1 ∉ done.map Prod.fst := by
        intro hc
        rw [hfst] at hPnd
        exact (List.nodup_append.mp hPnd).2.2 hc (List.mem_cons_self _ _)
      have hpairs : p ∈ mirrorPairs names := by
        rw [hsplit]; exact List.mem_append_right _ (List.mem_cons_self _ _)
      have hn2 : p.2 = swapLR p.1 := (mem_mirrorPairs hpairs).2.2
      have hSsubP : ∀ m, m ∈ done.map Prod.fst → m ∈ names.filter (lrPaired names) := by
        intro m hm
        rw [hfst]
        exact List.mem_append_left _ hm
      have hchar : ∀ m ∈ names,
          mirrorF3 (names.filter (lrPaired names)) (done.map Prod.fst) m
            = swapTempName p.2 → m = p.1 := by
        intro m hm he
        by_cases hmS : m ∈ done.map Prod.fst
        · exfalso
          rw [mirrorF3, if_pos hmS] at he
          have hmpair : lrPaired names m = true :=
            (List.mem_filter.mp (hSsubP m hmS)).2
          have hsw := swapLR_not_temp (lrPaired_tok hmpair)
          rw [he, swapTempName_startsWith] at hsw
          exact absurd hsw (by decide)
        · rw [mirrorF3, if_neg hmS] at he
          by_cases hmP : m ∈ names.filter (lrPaired names)
          · rw [mirrorF1, if_pos hmP] at he
            have hswm : swapLR m = p.2 := swapTempName_inj he
            have hmpair : lrPaired names m = true := (List.mem_filter.mp hmP).2
            have : swapLR (swapLR m) = m := swapLR_invol (lrPaired_tok hmpair)
            rw [hswm, hn2, swapLR_invol (lrPaired_tok hn1pair)] at this
            exact this.symm
          · exfalso
            rw [mirrorF1, if_neg hmP] at he
            have hsw := swapTempName_startsWith p.2
            rw [← he, htemp m hm] at hsw
            exact absurd hsw (by decide)
      have hstep : renameFirst
          (names.map (mirrorF3 (names.filter (lrPaired names)) (done.map Prod.fst)))
          (swapTempName p.2) p.2
          = names.map (mirrorF3 (names.filter (lrPaired names))
              (done.map Prod.fst ++ [p.1])) := by
        apply renameFirst_map names _ _ (swapTempName p.2) p.2 hnd
        · intro m hm he
          have hm1 := hchar m hm he
          subst hm1
          rw [mirrorF3, if_pos (List.mem_append_right _ (List.mem_cons_self _ _)),
            hn2]
        · intro m hm he
          by_cases hmS : m ∈ done.map Prod.fst
          · rw [mirrorF3, if_pos (List.mem_append_left _ hmS), mirrorF3,
              if_pos hmS]
          · have hmne : m ≠ p.1 := by
              intro hc
              apply he
              subst hc
              rw [mirrorF3, if_neg hmS, mirrorF1, if_pos hn1P, hn2]
            rw [mirrorF3, if_neg (by
              intro hc
              rcases List.mem_append.mp hc with hc | hc
              · exact hmS hc
              · exact hmne (List.mem_singleton.mp hc)), mirrorF3, if_neg hmS]
        · intro m hm m' hm' he he'
          rw [hchar m hm he, hchar m' hm' he']
      have hmap : List.map Prod.fst done ++ [p.1] = List.map Prod.fst (done ++ [p]) := by
        simp
      rw [List.foldl_cons, hstep, hmap,
        ih (done ++ [p]) (by rw [hsplit]; simp)]
      congr 1
      simp

/-- Characterization of mirror_names: on a container with pairwise distinct
member names, none of which carries the transient token, mirror swaps
exactly the two-sided L and R pairs and leaves every other member
untouched. -/
theorem map_mirrorF1_nil (names : List Name) : names.map (mirrorF1 []) = names := by
  induction names with
  | nil => rfl
  | cons x xs ih => rw [List.map_cons, ih, mirrorF1, if_neg (List.not_mem_nil x)]

theorem map_mirrorF3_nil (names P : List Name) :
    names.map (mirrorF3 P []) = names.map (mirrorF1 P) := by
  apply mapCongrMem
  intro m _
  rw [mirrorF3, if_neg (List.not_mem_nil m)]

theorem mirror_names_eq (names : List Name) (hnd : names.Nodup)
    (htemp : ∀ n ∈ names, nameStartsWith n swapTempTok = false) :
    mirror_names names = names.map (swapIfPaired names) := by
  have h1 := mirrorPhase1 names hnd htemp (mirrorPairs names) [] rfl
  have h2 := mirrorPhase2 names htemp (mirrorPairs names) (fun q hq => hq)
  have h3 := mirrorPhase3 names hnd htemp (mirrorPairs names) [] rfl
  simp only [List.map_nil, List.nil_append] at h1 h3
  rw [map_mirrorF1_nil] at h1
  rw [map_mirrorF3_nil] at h3
  rw [mirror_names, h1, mirrorPairs_fst, h2, h3, mirrorPairs_fst]
  apply mapCongrMem
  intro m hm
  rw [mirrorF3, swapIfPaired]
  by_cases hp : lrPaired names m = true
  · rw [if_pos (List.mem_filter.mpr ⟨hm, hp⟩), if_pos hp]
  · rw [if_neg (fun hc => hp (List.mem_filter.mp hc).2),
      if_neg (fun hc => hp hc), mirrorF1,
      if_neg (fun hc => hp (List.mem_filter.mp hc).2)]

theorem lrPaired_congr {A B : List Name} (h : ∀ y, y ∈ A ↔ y ∈ B) (n : Name) :
    lrPaired A n = lrPaired B n := by
  rw [lrPaired, lrPaired]
  by_cases hl : nameStartsWith n lTok = true
  · rw [if_pos hl, if_pos hl]
    exact decide_eq_decide.mpr (h _)
  · rw [if_neg hl, if_neg hl]
    by_cases hr : nameStartsWith n rTok = true
    · rw [if_pos hr, if_pos hr]
      exact decide_eq_decide.mpr (h _)
    · rw [if_neg hr, if_neg hr]

theorem swapIfPaired_mem {names : List Name} {m : Name} (hm : m ∈ names) :
    swapIfPaired names m ∈ names := by
  rw [swapIfPaired]
  by_cases hp : lrPaired names m = true
  · rw [if_pos hp]; exact lrPaired_swapLR_mem hp
  · rw [if_neg hp]; exact hm

/-- Mirror applied twice restores the original name assignment, on
containers with distinct member names, none carrying the transient
token. -/
theorem mirror_names_involutive (names : List Name) (hnd : names.Nodup)
    (htemp : ∀ n ∈ names, nameStartsWith n swapTempTok = false) :
    mirror_names (mirror_names names) = names := by
  have hinj : ∀ x ∈ names, ∀ y ∈ names,
      swapIfPaired names x = swapIfPaired names y → x = y := by
    intro x hx y hy he
    by_cases hpx : lrPaired names x = true
    · by_cases hpy : lrPaired names y = true
      · rw [swapIfPaired, if_pos hpx, swapIfPaired, if_pos hpy] at he
        have h2 := congrArg swapLR he
        rwa [swapLR_invol (lrPaired_tok hpx), swapLR_invol (lrPaired_tok hpy)] at h2
      · rw [swapIfPaired, if_pos hpx, swapIfPaired, if_neg hpy] at he
        exfalso
        apply hpy
        rw [← he]
        exact lrPaired_swapLR hx hpx
    · by_cases hpy : lrPaired names y = true
      · rw [swapIfPaired, if_neg hpx, swapIfPaired, if_pos hpy] at he
        exfalso
        apply hpx
        rw [he]
        exact lrPaired_swapLR hy hpy
      · rw [swapIfPaired, if_neg hpx, swapIfPaired, if_neg hpy] at he
        exact he
  have hmemM : ∀ x, x ∈ names.map (swapIfPaired names) ↔ x ∈ names := by
    intro x
    constructor
    · intro hx
      rcases List.mem_map.mp hx with ⟨m, hm, rfl⟩
      exact swapIfPaired_mem hm
    · intro hx
      by_cases hp : lrPaired names x = true
      · refine List.mem_map.mpr ⟨swapLR x, lrPaired_swapLR_mem hp, ?_⟩
        rw [swapIfPaired, if_pos (lrPaired_swapLR hx hp),
          swapLR_invol (lrPaired_tok hp)]
      · exact List.mem_map.mpr ⟨x, hx, by rw [swapIfPaired, if_neg hp]⟩
  have hndM : (names.map (swapIfPaired names)).Nodup := hnd.map_on hinj
  have htempM : ∀ x ∈ names.map (swapIfPaired names),
      nameStartsWith x swapTempTok = false := by
    intro x hx
    rcases List.mem_map.mp hx with ⟨m, hm, rfl⟩
    rw [swapIfPaired]
    by_cases hp : lrPaired names m = true
    · rw [if_pos hp]; exact swapLR_not_temp (lrPaired_tok hp)
    · rw [if_neg hp]; exact htemp m hm
  have hpairM : ∀ n, lrPaired (names.map (swapIfPaired names)) n = lrPaired names n :=
    fun n => lrPaired_congr hmemM n
  rw [mirror_names_eq names hnd htemp, mirror_names_eq _ hndM htempM, List.map_map]
  have hpt : ∀ m ∈ names,
      (swapIfPaired (names.map (swapIfPaired names)) ∘ swapIfPaired names) m
        = (fun n => n) m := by
    intro m hm
    show swapIfPaired (names.map (swapIfPaired names)) (swapIfPaired names m) = m
    by_cases hp : lrPaired names m = true
    · have hin : swapIfPaired names m = swapLR m := by rw [swapIfPaired, if_pos hp]
      rw [hin, swapIfPaired, hpairM, if_pos (lrPaired_swapLR hm hp),
        swapLR_invol (lrPaired_tok hp)]
    · have hin : swapIfPaired names m = m := by rw [swapIfPaired, if_neg hp]
      rw [hin, swapIfPaired, hpairM, if_neg hp]
  rw [mapCongrMem names _ (fun n => n) hpt]
  simp

-- ============================
-- Dictionary lemmas
-- ============================

theorem alookup_eq_none {α : Type} : ∀ (d : List (Name × α)) (k : Name),
    alookup d k = none ↔ k ∉ keysOf d
  | [], k => ⟨fun _ hc => by simp [keysOf] at hc, fun _ => rfl⟩
  | (k', v') :: rest, k => by
      rw [alookup, keysOf, List.map_cons]
      by_cases h : k' = k
      · rw [if_pos h]
        constructor
        · intro hc
          exact absurd hc (Option.some_ne_none v')
        · intro hc
          exfalso
          exact hc (by rw [← h]; exact List.mem_cons_self _ _)
      · rw [if_neg h, alookup_eq_none rest k]
        constructor
        · intro hn hc
          rcases List.mem_cons.mp hc with hc | hc
          · exact h hc.symm
          · exact hn hc
        · intro hn hc
          exact hn (List.mem_cons_of_mem _ hc)

theorem mem_of_alookup_eq_some {α : Type} :
    ∀ {d : List (Name × α)} {k : Name} {v : α},
      alookup d k = some v → (k, v) ∈ d := by
  intro d
  induction d with
  | nil => intro k v h; simp [alookup] at h
  | cons p rest ih =>
      intro k v h
      rw [alookup] at h
      by_cases he : p.1 = k
      · rw [if_pos he] at h
        have hv : v = p.2 := (Option.some.inj h).symm
        rw [← he, hv]
        exact List.mem_cons_self _ _
      · rw [if_neg he] at h
        exact List.mem_cons_of_mem _ (ih h)

theorem pair_eq_of_snd_nodup {α β : Type} :
    ∀ {d : List (α × β)}, (d.map Prod.snd).Nodup →
      ∀ {p q : α × β}, p ∈ d → q ∈ d → p.2 = q.2 → p = q := by
  intro d
  induction d with
  | nil => intro _ p q hp; simp at hp
  | cons x rest ih =>
      intro hnd p q hp hq he
      rw [List.map_cons, List.nodup_cons] at hnd
      rcases List.mem_cons.mp hp with hp | hp <;>
        rcases List.mem_cons.mp hq with hq | hq
      · rw [hp, hq]
      · exfalso
        apply hnd.1
        rw [hp] at he
        exact he ▸ List.mem_map_of_mem Prod.snd hq
      · exfalso
        apply hnd.1
        rw [hq] at he
        exact he ▸ List.mem_map_of_mem Prod.snd hp
      · exact ih hnd.2 hp hq he

theorem alookup_inj {r : RS} (hvals : (r.map Prod.snd).Nodup)
    {k1 k2 v : Name} (h1 : alookup r k1 = some v) (h2 : alookup r k2 = some v) :
    k1 = k2 := by
  have hm1 := mem_of_alookup_eq_some h1
  have hm2 := mem_of_alookup_eq_some h2
  have := pair_eq_of_snd_nodup hvals hm1 hm2 rfl
  exact (Prod.mk.inj this).1

theorem insertOrUpdate_of_not_mem {α : Type} :
    ∀ (d : List (Name × α)) (k : Name) (v : α), k ∉ keysOf d →
      insertOrUpdate d k v = d ++ [(k, v)]
  | [], k, v, _ => rfl
  | (k', v') :: rest, k, v, h => by
      have hk : ¬ k' = k := by
        intro hc
        exact h (by rw [keysOf, List.map_cons, hc]; exact List.mem_cons_self _ _)
      rw [insertOrUpdate, if_neg hk,
        insertOrUpdate_of_not_mem rest k v
          (fun hc => h (by rw [keysOf, List.map_cons]; exact List.mem_cons_of_mem _ hc))]
      rfl

-- ============================
-- Undo characterization
-- ============================

theorem foldl_insertOrUpdate_rev :
    ∀ (r : RS) (acc : RS), (r.map Prod.snd).Nodup →
      (∀ p ∈ r, p.2 ∉ keysOf acc) →
      r.foldl (fun a p => insertOrUpdate a p.2 p.1) acc
        = acc ++ r.map (fun p => (p.2, p.1))
  | [], acc, _, _ => by simp
  | p :: rest, acc, hnd, hfresh => by
      rw [List.foldl_cons,
        insertOrUpdate_of_not_mem acc p.2 p.1 (hfresh p (List.mem_cons_self _ _))]
      rw [List.map_cons, List.nodup_cons] at hnd
      rw [foldl_insertOrUpdate_rev rest (acc ++ [(p.2, p.1)]) hnd.2 (by
        intro q hq hc
        rw [keysOf, List.map_append] at hc
        rcases List.mem_append.mp hc with hc | hc
        · exact hfresh q (List.mem_cons_of_mem _ hq) hc
        · apply hnd.1
          have he : q.2 = p.2 := by simpa using hc
          rw [← he]
          exact List.mem_map_of_mem Prod.snd hq)]
      simp

theorem reverseRules_eq (r : RS) (hvals : (r.map Prod.snd).Nodup) :
    reverseRules r = r.map (fun p => (p.2, p.1)) := by
  rw [reverseRules, foldl_insertOrUpdate_rev r [] hvals (by
    intro p _ hc
    simp [keysOf] at hc)]
  rfl

theorem alookup_rev_of_mem :
    ∀ {r : RS}, (r.map Prod.snd).Nodup →
      ∀ {k v : Name}, (k, v) ∈ r →
        alookup (r.map (fun p => (p.2, p.1))) v = some k := by
  intro r
  induction r with
  | nil => intro _ k v h; simp at h
  | cons q rest ih =>
      intro hnd k v hmem
      rw [List.map_cons, List.nodup_cons] at hnd
      rw [List.map_cons, alookup]
      rcases List.mem_cons.mp hmem with hm | hm
      · subst hm
        rw [if_pos rfl]
      · by_cases he : q.2 = v
        · exfalso
          apply hnd.1
          rw [he]
          exact List.mem_map_of_mem Prod.snd hm
        · rw [if_neg he]
          exact ih hnd.2 hm

theorem alookup_rev_none {r : RS} {n : Name} (h : ∀ p ∈ r, p.2 ≠ n) :
    alookup (r.map (fun p => (p.2, p.1))) n = none := by
  induction r with
  | nil => rfl
  | cons q rest ih =>
      rw [List.map_cons, alookup, if_neg (h q (List.mem_cons_self _ _))]
      exact ih (fun p hp => h p (List.mem_cons_of_mem _ hp))

theorem vgNames_undoRules (s : MeshState) (r : RS) :
    vgNames (undoRules s r)
      = (vgNames s).map (fun n => match alookup (reverseRules r) n with
          | some o => o
          | none => n) := by
  rw [vgNames, undoRules, List.map_map, vgNames, List.map_map]
  apply mapCongrMem
  intro g _
  show Prod.fst (match alookup (reverseRules r) g.1 with
      | some o => (o, g.2)
      | none => g) = _
  cases h : alookup (reverseRules r) g.1 <;> simp [h]

-- ============================
-- Bucket and apply characterization
-- ============================

theorem addToBucket_fresh :
    ∀ (acc : List (Name × List Name)) (t : Name) (src : Name), t ∉ keysOf acc →
      addToBucket acc t src = acc ++ [(t, [src])]
  | [], t, src, _ => rfl
  | (t', l) :: rest, t, src, h => by
      have ht : ¬ t' = t := by
        intro hc
        exact h (by rw [keysOf, List.map_cons, hc]; exact List.mem_cons_self _ _)
      rw [addToBucket, if_neg ht,
        addToBucket_fresh rest t src
          (fun hc => h (by rw [keysOf, List.map_cons]; exact List.mem_cons_of_mem _ hc))]
      rfl

theorem bucketsAux (r : RS) :
    ∀ (gs : List (Name × Weights)) (acc : List (Name × List Name)),
      ((gs.map Prod.fst).filterMap (fun n => alookup r n)).Nodup →
      (∀ t ∈ (gs.map Prod.fst).filterMap (fun n => alookup r n), t ∉ keysOf acc) →
      gs.foldl (fun acc g => match alookup r g.1 with
        | some t => addToBucket acc t g.1
        | none => acc) acc
      = acc ++ (gs.map Prod.fst).filterMap (fun n => (alookup r n).map (fun t => (t, [n])))
  | [], acc, _, _ => by simp
  | g :: gs, acc, hnd, hfresh => by
      rw [List.foldl_cons]
      cases h : alookup r g.1 with
      | none =>
          rw [List.map_cons, List.filterMap_cons] at hnd hfresh ⊢
          simp only [h] at hnd hfresh ⊢
          exact bucketsAux r gs acc hnd hfresh
      | some t =>
          rw [List.map_cons, List.filterMap_cons] at hnd hfresh ⊢
          simp only [h, Option.map_some'] at hnd hfresh ⊢
          rw [List.nodup_cons] at hnd
          rw [addToBucket_fresh acc t g.1 (hfresh t (List.mem_cons_self _ _))]
          rw [bucketsAux r gs (acc ++ [(t, [g.1])]) hnd.2 (by
            intro u hu hc
            rw [keysOf, List.map_append] at hc
            rcases List.mem_append.mp hc with hc | hc
            · exact hfresh u (List.mem_cons_of_mem _ hu) hc
            · apply hnd.1
              rw [show u = t from by simpa using hc] at hu
              exact hu)]
          simp

theorem targets_nodup (r : RS) (hvals : (r.map Prod.snd).Nodup) :
    ∀ (l : List Name), l.Nodup → (l.filterMap (fun n => alookup r n)).Nodup
  | [], _ => by simp
  | n :: ns, hnd => by
      rw [List.nodup_cons] at hnd
      rw [List.filterMap_cons]
      cases h : alookup r n with
      | none => exact targets_nodup r hvals ns hnd.2
      | some t =>
          rw [List.nodup_cons]
          refine ⟨?_, targets_nodup r hvals ns hnd.2⟩
          intro hc
          rcases List.mem_filterMap.mp hc with ⟨m, hm, hlk⟩
          exact hnd.1 (alookup_inj hvals hlk h ▸ hm)

theorem vgBuckets_eq (s : MeshState) (r : RS)
    (hnd : (vgNames s).Nodup) (hvals : (r.map Prod.snd).Nodup) :
    vgBuckets s r
      = (vgNames s).filterMap (fun n => (alookup r n).map (fun t => (t, [n]))) := by
  rw [vgBuckets, bucketsAux r s.groups [] (targets_nodup r hvals _ hnd)
    (by intro t _ hc; simp [keysOf] at hc)]
  rw [List.nil_append]
  rfl

theorem pairfold_singles (r : RS) :
    ∀ (l : List Name) (st : MeshState) (c : Nat),
      (l.filterMap (fun n => (alookup r n).map (fun t => (t, [n])))).foldl
          (fun st b => match b.2 with
            | [] => st
            | [src] => (renameStep st.1 src b.1, st.2)
            | srcs => (merge_vertex_groups st.1 b.1 srcs, st.2 + 1))
          (st, c)
        = (l.foldl (fun st n => match alookup r n with
            | some t => renameStep st n t
            | none => st) st, c)
  | [], _, _ => rfl
  | n :: l, st, c => by
      cases h : alookup r n with
      | none =>
          simp only [List.filterMap_cons, List.foldl_cons, h]
          exact pairfold_singles r l st c
      | some t =>
          simp only [List.filterMap_cons, List.foldl_cons, h, Option.map_some']
          exact pairfold_singles r l (renameStep st n t) c

theorem vgNames_renameFirstG {α : Type} :
    ∀ (gs : List (Name × α)) (a b : Name),
      (renameFirstG gs a b).map Prod.fst = renameFirst (gs.map Prod.fst) a b
  | [], _, _ => rfl
  | (k, v) :: rest, a, b => by
      rw [renameFirstG, List.map_cons, renameFirst]
      by_cases h : k = a
      · rw [if_pos h, if_pos h, List.map_cons]
      · rw [if_neg h, if_neg h, List.map_cons, vgNames_renameFirstG rest a b]

theorem vgNames_renameStep (st : MeshState) (src t : Name) :
    vgNames (renameStep st src t) = renameFirst (vgNames st) src t :=
  vgNames_renameFirstG st.groups src t

theorem vgNames_statefold (r : RS) :
    ∀ (l : List Name) (st : MeshState),
      vgNames (l.foldl (fun st n => match alookup r n with
        | some t => renameStep st n t
        | none => st) st)
      = l.foldl (fun names n => match alookup r n with
          | some t => renameFirst names n t
          | none => names) (vgNames st)
  | [], _ => rfl
  | n :: l, st => by
      cases h : alookup r n with
      | none =>
          simp only [List.foldl_cons, h]
          exact vgNames_statefold r l st
      | some t =>
          simp only [List.foldl_cons, h]
          rw [vgNames_statefold r l (renameStep st n t), vgNames_renameStep]

/-- State of a member name after the single-rename loop has processed the
names in S: processed names in the ruleset carry their target, everything
else is untouched. -/
def applyF (r : RS) (S : List Name) (n : Name) : Name :=
  if n ∈ S then (alookup r n).getD n else n

theorem applyFoldNames (names : List Name) (r : RS) (hnd : names.Nodup)
    (hsafe : ∀ n ∈ names, ∀ p ∈ r, p.2 = n → p.1 = n) :
    ∀ (ms done : List Name), names = done ++ ms →
      ms.foldl (fun l n => match alookup r n with
          | some t => renameFirst l n t
          | none => l) (names.map (applyF r done))
        = names.map (applyF r (done ++ ms)) := by
  intro ms
  induction ms with
  | nil => intro done h; rw [List.append_nil, List.foldl_nil]
  | cons n ms' ih =>
      intro done hsplit
      have hnmem : n ∈ names := by
        rw [hsplit]; exact List.mem_append_right _ (List.mem_cons_self _ _)
      have hnS : n ∉ done := by
        intro hc
        have hnd2 := hsplit ▸ hnd
        exact (List.nodup_append.mp hnd2).2.2 hc (List.mem_cons_self _ _)
      have hchar : ∀ m ∈ names, applyF r done m = n → m = n := by
        intro m hm he
        by_cases hmS : m ∈ done
        · exfalso
          rw [applyF, if_pos hmS] at he
          cases h2 : alookup r m with
          | none =>
              rw [h2, Option.getD_none] at he
              exact hnS (he ▸ hmS)
          | some tm =>
              rw [h2, Option.getD_some] at he
              have hmem2 := mem_of_alookup_eq_some h2
              have := hsafe n hnmem (m, tm) hmem2 he
              exact hnS (this ▸ hmS)
        · rw [applyF, if_neg hmS] at he
          exact he
      have hmovemap : ∀ m ∈ names, m ≠ n →
          applyF r (done ++ [n]) m = applyF r done m := by
        intro m _ hmn
        by_cases hmS : m ∈ done
        · rw [applyF, if_pos (List.mem_append_left _ hmS), applyF, if_pos hmS]
        · rw [applyF, if_neg (by
            intro hc
            rcases List.mem_append.mp hc with hc | hc
            · exact hmS hc
            · exact hmn (List.mem_singleton.mp hc)), applyF, if_neg hmS]
      cases h : alookup r n with
      | none =>
          simp only [List.foldl_cons, h]
          have hmapeq : names.map (applyF r done)
              = names.map (applyF r (done ++ [n])) := by
            apply mapCongrMem
            intro m hm
            by_cases hmn : m = n
            · subst hmn
              rw [applyF, if_neg hnS, applyF,
                if_pos (List.mem_append_right _ (List.mem_cons_self _ _)), h,
                Option.getD_none]
            · exact (hmovemap m hm hmn).symm
          rw [hmapeq, ih (done ++ [n]) (by rw [hsplit]; simp)]
          congr 1
          simp
      | some t =>
          simp only [List.foldl_cons, h]
          have hstep : renameFirst (names.map (applyF r done)) n t
              = names.map (applyF r (done ++ [n])) := by
            apply renameFirst_map names _ _ n t hnd
            · intro m hm he
              have hm1 := hchar m hm he
              subst hm1
              rw [applyF,
                if_pos (List.mem_append_right _ (List.mem_cons_self _ _)), h,
                Option.getD_some]
            · intro m hm he
              by_cases hmn : m = n
              · exfalso
                apply he
                subst hmn
                rw [applyF, if_neg hnS]
              · exact hmovemap m hm hmn
            · intro m hm m' hm' he he'
              rw [hchar m hm he, hchar m' hm' he']
          rw [hstep, ih (done ++ [n]) (by rw [hsplit]; simp)]
          congr 1
          simp

/-- Applying a ruleset in which no two rules share a target, to a mesh
whose group names are distinct and where no rule target collides with the
name of a different existing group, renames each group by a simple lookup
of the ruleset, position preserved. -/
theorem vgNames_applyRules (s : MeshState) (r : RS)
    (hnd : (vgNames s).Nodup)
    (hvals : (r.map Prod.snd).Nodup)
    (hsafe : ∀ n ∈ vgNames s, ∀ p ∈ r, p.2 = n → p.1 = n) :
    vgNames (applyRules s r)
      = (vgNames s).map (fun n => (alookup r n).getD n) := by
  rw [applyRules, applyRulesRun, vgBuckets_eq s r hnd hvals,
    pairfold_singles r (vgNames s) s 0]
  rw [show ((vgNames s).foldl (fun st n => match alookup r n with
      | some t => renameStep st n t
      | none => st) s, 0).1
    = (vgNames s).foldl (fun st n => match alookup r n with
      | some t => renameStep st n t
      | none => st) s from rfl]
  rw [vgNames_statefold r (vgNames s) s]
  have h0 : (vgNames s).map (applyF r []) = vgNames s := by
    rw [mapCongrMem (vgNames s) (applyF r []) (fun x => x)
      (fun m _ => by rw [applyF, if_neg (List.not_mem_nil m)])]
    simp
  have hfold := applyFoldNames (vgNames s) r hnd hsafe (vgNames s) [] rfl
  rw [h0, List.nil_append] at hfold
  rw [hfold]
  apply mapCongrMem
  intro m hm
  rw [applyF, if_pos hm]

/-- The normalization-pass counter of one apply call equals the number of
buckets holding two or more source groups. -/
theorem applyRulesRun_snd :
    ∀ (bs : List (Name × List Name)) (st : MeshState) (c : Nat),
      (bs.foldl (fun st b => match b.2 with
        | [] => st
        | [src] => (renameStep st.1 src b.1, st.2)
        | srcs => (merge_vertex_groups st.1 b.1 srcs, st.2 + 1)) (st, c)).2
      = c + (bs.filter (fun b => decide (2 ≤ b.2.length))).length
  | [], st, c => by simp
  | ⟨t, srcs⟩ :: bs, st, c => by
      cases srcs with
      | nil =>
          simp only [List.foldl_cons, List.filter_cons]
          rw [applyRulesRun_snd bs st c]
          rw [if_neg (by simp)]
      | cons x srcs2 =>
          cases srcs2 with
          | nil =>
              simp only [List.foldl_cons, List.filter_cons]
              rw [applyRulesRun_snd bs (renameStep st x t) c]
              rw [if_neg (by simp)]
          | cons y srcs3 =>
              simp only [List.foldl_cons, List.filter_cons]
              rw [applyRulesRun_snd bs (merge_vertex_groups st t (x :: y :: srcs3)) (c + 1)]
              rw [if_pos (by simp)]
              rw [List.length_cons]
              omega

theorem normPassCount_eq_mergeBuckets (s : MeshState) (r : RS) :
    normPassCount s r
      = ((vgBuckets s r).filter (fun b => decide (2 ≤ b.2.length))).length := by
  rw [normPassCount, applyRulesRun, applyRulesRun_snd (vgBuckets s r) s 0]
  omega

-- ============================
-- Merge weight semantics
-- ============================

theorem wlookup_map_self (f : Nat → ℚ) :
    ∀ (verts : List Nat) (v : Nat), v ∈ verts →
      wlookup (verts.map (fun u => (u, f u))) v = f v
  | [], v, h => absurd h (List.not_mem_nil v)
  | u :: verts, v, h => by
      rw [List.map_cons, wlookup]
      by_cases he : u = v
      · rw [if_pos he, he]
      · rw [if_neg he]
        exact wlookup_map_self f verts v (by
          rcases List.mem_cons.mp h with h | h
          · exact absurd h.symm he
          · exact h)

theorem groupNameAt_normalizePass (s : MeshState) (i : Nat) :
    groupNameAt (normalizePass s) i = groupNameAt s i := by
  rw [groupNameAt, groupNameAt, normalizePass]
  rw [List.getElem?_map]
  cases s.groups[i]? <;> rfl

theorem groupWeightAt_normalizePass (s : MeshState) (i v : Nat) (hv : v ∈ s.verts) :
    groupWeightAt (normalizePass s) i v
      = if 1 < totalWeight s v then groupWeightAt s i v / totalWeight s v
        else groupWeightAt s i v := by
  rw [groupWeightAt, groupWeightAt, normalizePass]
  rw [List.getElem?_map]
  cases h : s.groups[i]? with
  | none => simp
  | some p =>
      simp only [Option.map_some']
      exact wlookup_map_self
        (fun u => if 1 < totalWeight s u then wlookup p.2 u / totalWeight s u
          else wlookup p.2 u) s.verts v hv

theorem totalWeight_normalizePass (s : MeshState) (v : Nat) (hv : v ∈ s.verts)
    (h : 1 < totalWeight s v) :
    totalWeight (normalizePass s) v = 1 := by
  rw [totalWeight, normalizePass]
  rw [List.map_map]
  rw [mapCongrMem s.groups _
    (fun p => wlookup p.2 v * (totalWeight s v)⁻¹) (fun p _ => by
      show wlookup (s.verts.map (fun u =>
        (u, if 1 < totalWeight s u then wlookup p.2 u / totalWeight s u
            else wlookup p.2 u))) v = _
      rw [wlookup_map_self
        (fun u => if 1 < totalWeight s u then wlookup p.2 u / totalWeight s u
          else wlookup p.2 u) s.verts v hv]
      rw [if_pos h, div_eq_mul_inv])]
  rw [List.sum_map_mul_right]
  rw [show (s.groups.map (fun p => wlookup p.2 v)).sum = totalWeight s v from rfl]
  exact mul_inv_cancel₀ (ne_of_gt (lt_trans zero_lt_one h))

theorem mergeAccum_length (s : MeshState) (t : Name) (srcs : List Name) :
    (mergeAccum s t srcs).groups.length
      = (srcs.foldl (fun gs gn => removeFirstG gs gn) s.groups).length + 1 := by
  rw [mergeAccum]
  simp

theorem mergeAccum_last_name (s : MeshState) (t : Name) (srcs : List Name) :
    groupNameAt (mergeAccum s t srcs) ((mergeAccum s t srcs).groups.length - 1)
      = some t := by
  rw [groupNameAt, mergeAccum_length, Nat.add_sub_cancel, mergeAccum,
    List.getElem?_append_right (le_refl _)]
  simp

theorem mergeAccum_last_weight (s : MeshState) (t : Name) (srcs : List Name)
    (v : Nat) (hv : v ∈ s.verts) :
    groupWeightAt (mergeAccum s t srcs) ((mergeAccum s t srcs).groups.length - 1) v
      = preMergeSum s srcs v := by
  rw [groupWeightAt, mergeAccum_length, Nat.add_sub_cancel, mergeAccum,
    List.getElem?_append_right (le_refl _)]
  simp only [Nat.sub_self, List.getElem?_cons_zero]
  exact wlookup_map_self (fun u => preMergeSum s srcs u) s.verts v hv

-- ============================
-- Rule edit characterization
-- ============================

theorem rename_key_aux (o n : Name) :
    ∀ (l : RS) (acc : RS),
      (l.map (fun kv => if kv.1 = o then n else kv.1)).Nodup →
      (∀ kv ∈ l, (if kv.1 = o then n else kv.1) ∉ keysOf acc) →
      l.foldl (fun nd kv =>
          if kv.1 = o then insertOrUpdate nd n kv.2
          else insertOrUpdate nd kv.1 kv.2) acc
        = acc ++ l.map (fun kv => if kv.1 = o then (n, kv.2) else kv)
  | [], acc, _, _ => by simp
  | kv :: l, acc, hnd, hfresh => by
      rw [List.map_cons, List.nodup_cons] at hnd
      have hfr := hfresh kv (List.mem_cons_self _ _)
      have hrest : ∀ newk : Name, (if kv.1 = o then n else kv.1) = newk →
          ∀ q ∈ l, (if q.1 = o then n else q.1) ∉ keysOf (acc ++ [(newk, kv.2)]) := by
        intro newk hnk q hq hc
        rw [keysOf, List.map_append] at hc
        rcases List.mem_append.mp hc with hc | hc
        · exact hfresh q (List.mem_cons_of_mem _ hq) hc
        · apply hnd.1
          have hqk : (if q.1 = o then n else q.1) = newk := by simpa using hc
          rw [hnk, ← hqk]
          exact List.mem_map_of_mem _ hq
      simp only [List.foldl_cons]
      by_cases h : kv.1 = o
      · rw [if_pos h] at hfr
        rw [if_pos h, insertOrUpdate_of_not_mem acc n kv.2 hfr,
          rename_key_aux o n l (acc ++ [(n, kv.2)]) hnd.2
            (hrest n (by rw [if_pos h])),
          List.map_cons, if_pos h]
        simp
      · rw [if_neg h] at hfr
        rw [if_neg h, insertOrUpdate_of_not_mem acc kv.1 kv.2 hfr,
          rename_key_aux o n l (acc ++ [(kv.1, kv.2)]) hnd.2
            (hrest kv.1 (by rw [if_neg h])),
          List.map_cons, if_neg h]
        simp

theorem mapped_keys_nodup (d : RS) (o n : Name)
    (hkeys : (d.map Prod.fst).Nodup)
    (hfree : n = o ∨ n ∉ d.map Prod.fst) :
    (d.map (fun kv => if kv.1 = o then n else kv.1)).Nodup := by
  rw [show (fun kv : Name × Name => if kv.1 = o then n else kv.1)
      = (fun k => if k = o then n else k) ∘ Prod.fst from rfl,
    ← List.map_map]
  apply hkeys.map_on
  intro k hk k' hk' he
  by_cases h1 : k = o
  · by_cases h2 : k' = o
    · rw [h1, h2]
    · rw [if_pos h1, if_neg h2] at he
      rcases hfree with hf | hf
      · exact absurd (by rw [← he]; exact hf) h2
      · exact absurd (by rw [he]; exact hk') hf
  · by_cases h2 : k' = o
    · rw [if_neg h1, if_pos h2] at he
      rcases hfree with hf | hf
      · exact absurd (by rw [he]; exact hf) h1
      · exact absurd (by rw [← he]; exact hk) hf
    · rw [if_neg h1, if_neg h2] at he
      exact he

theorem rename_key_map (d : RS) (o n : Name)
    (hkeys : (d.map Prod.fst).Nodup)
    (hfree : n = o ∨ n ∉ d.map Prod.fst) :
    rename_key_in_ordered_dict d o n
      = d.map (fun kv => if kv.1 = o then (n, kv.2) else kv) := by
  rw [rename_key_in_ordered_dict,
    rename_key_aux o n d [] (mapped_keys_nodup d o n hkeys hfree)
      (by intro kv _ hc; simp [keysOf] at hc)]
  rfl

theorem insertOrUpdate_mapped (o n : Name) (nv : Name) :
    ∀ (d : RS), (d.map Prod.fst).Nodup → (n = o ∨ n ∉ d.map Prod.fst) →
      o ∈ d.map Prod.fst →
      insertOrUpdate (d.map (fun kv => if kv.1 = o then (n, kv.2) else kv)) n nv
        = d.map (fun kv => if kv.1 = o then (n, nv) else kv)
  | [], _, _, h => absurd h (by simp)
  | ⟨k1, v1⟩ :: d, hkeys, hfree, hmem => by
      rw [List.map_cons, List.nodup_cons] at hkeys
      rw [List.map_cons, List.map_cons]
      by_cases h : (k1, v1).1 = o
      · rw [if_pos h, if_pos h, insertOrUpdate, if_pos rfl]
        congr 1
        apply mapCongrMem
        intro q hq
        have hqo : ¬ q.1 = o := by
          intro hc
          apply hkeys.1
          rw [h, ← hc]
          exact List.mem_map_of_mem Prod.fst hq
        rw [if_neg hqo, if_neg hqo]
      · rw [if_neg h, if_neg h, insertOrUpdate, if_neg (by
          intro hc
          rcases hfree with hf | hf
          · exact h (by rw [hc]; exact hf)
          · exact hf (by
              rw [← hc]
              exact List.mem_map_of_mem Prod.fst (List.mem_cons_self (k1, v1) d)))]
        congr 1
        apply insertOrUpdate_mapped o n nv d hkeys.2
          (by
            rcases hfree with hf | hf
            · exact Or.inl hf
            · exact Or.inr (fun hc => hf (List.mem_cons_of_mem _ hc)))
          (by
            rcases List.mem_cons.mp hmem with hc | hc
            · exact absurd hc.symm h
            · exact hc)

-- ============================
-- Prefix resolution equivalence
-- ============================

theorem find?_eq_filter_head {α : Type} (p : α → Bool) :
    ∀ l : List α, l.find? p = (l.filter p).head?
  | [] => rfl
  | x :: l => by
      cases h : p x with
      | true =>
          rw [List.find?_cons_of_pos _ h, List.filter_cons_of_pos h]
          rfl
      | false =>
          rw [List.find?_cons_of_neg _ (by rw [h]; exact Bool.false_ne_true),
            List.filter_cons_of_neg (by rw [h]; exact Bool.false_ne_true)]
          exact find?_eq_filter_head p l

/-- The find-based prefix loop of the source agrees with the spec-worded
filter-and-take-head description. -/
theorem matchedPfx_eq_spec (objName : Name) (table : RuleTable) :
    matchedPfx objName table = matchedPfxSpec objName table := by
  have hmap : (table.map Prod.fst).filter (fun p =>
        decide (p ≠ []) && nameStartsWith (lowerName objName) (lowerName p))
      = (table.filter (fun p =>
          decide (p.1 ≠ []) && nameStartsWith (lowerName objName) (lowerName p.1))).map
            Prod.fst := by
    rw [List.filter_map]
    rfl
  rw [matchedPfx, matchedPfxSpec]
  cases hf : table.find? (fun p =>
      decide (p.1 ≠ []) && nameStartsWith (lowerName objName) (lowerName p.1)) with
  | some pr =>
      have hhead : (table.filter (fun p =>
          decide (p.1 ≠ []) && nameStartsWith (lowerName objName) (lowerName p.1))).head?
          = some pr := by
        rw [← find?_eq_filter_head]
        exact hf
      cases hfl : table.filter (fun p =>
          decide (p.1 ≠ []) && nameStartsWith (lowerName objName) (lowerName p.1)) with
      | nil => rw [hfl] at hhead; cases hhead
      | cons q rest =>
          rw [hfl, List.head?_cons] at hhead
          have hq : q.1 = pr.1 := by rw [Option.some.inj hhead]
          simp only [hf, hmap, hfl, List.map_cons]
          rw [hq]
  | none =>
      have hhead : (table.filter (fun p =>
          decide (p.1 ≠ []) && nameStartsWith (lowerName objName) (lowerName p.1))).head?
          = none := by
        rw [← find?_eq_filter_head]
        exact hf
      cases hfl : table.filter (fun p =>
          decide (p.1 ≠ []) && nameStartsWith (lowerName objName) (lowerName p.1)) with
      | cons q rest => rw [hfl, List.head?_cons] at hhead; cases hhead
      | nil =>
          simp only [hf, hmap, hfl, List.map_nil]
          by_cases hm : ([] : Name) ∈ table.map Prod.fst
          · rcases List.mem_map.mp hm with ⟨p, hp, hp1⟩
            rw [if_pos (by
                rw [List.find?_isSome]
                exact ⟨p, hp, decide_eq_true hp1⟩),
              if_pos hm]
          · rw [if_neg (by
                intro hc
                rw [List.find?_isSome] at hc
                rcases hc with ⟨p, hp, hpe⟩
                exact hm (List.mem_map.mpr ⟨p, hp, of_decide_eq_true hpe⟩)),
              if_neg hm]

theorem alookup_of_mem {α : Type} :
    ∀ {d : List (Name × α)}, (d.map Prod.fst).Nodup →
      ∀ {k : Name} {v : α}, (k, v) ∈ d → alookup d k = some v := by
  intro d
  induction d with
  | nil => intro _ k v h; simp at h
  | cons q rest ih =>
      intro hnd k v hmem
      rw [List.map_cons, List.nodup_cons] at hnd
      rw [alookup]
      rcases List.mem_cons.mp hmem with hm | hm
      · subst hm
        rw [if_pos rfl]
      · by_cases he : q.1 = k
        · exfalso
          apply hnd.1
          rw [he]
          exact List.mem_map_of_mem Prod.fst hm
        · rw [if_neg he]
          exact ih hnd.2 hm

-- ============================
-- Example inputs for the claims
-- ============================

/-- Mesh with four vertex groups and one vertex, used against a ruleset
performing two merges. -/
def exC1mesh : MeshState :=
  { verts := [0],
    groups := [("a".toList, [(0, 9/10)]), ("b".toList, [(0, 9/10)]),
               ("c".toList, [(0, 2/5)]), ("d".toList, [(0, 2/5)])] }

/-- Ruleset merging a and b into A, and c and d into C. -/
def exC1rules : RS :=
  [("a".toList, "A".toList), ("b".toList, "A".toList),
   ("c".toList, "C".toList), ("d".toList, "C".toList)]

/-- Scene with one mesh linked to one armature, both holding a member
named a. -/
def exC2scene : Scene :=
  { meshes := [{ name := "M".toList, groups := ["a".toList],
                 arms := ["Arm".toList] }],
    armatures := [{ name := "Arm".toList, bones := ["a".toList] }] }

/-- Rule table with the empty catch-all ruleset renaming a to b. -/
def exCatchAll : RuleTable := [([], [("a".toList, "b".toList)])]

/-- Tables for the prefix resolution checks. -/
def exT1 : RuleTable :=
  [("Char_".toList, [("a".toList, "b".toList)]), ([], [("c".toList, "d".toList)])]

def exT2 : RuleTable :=
  [([], [("c".toList, "d".toList)]), ("Char_".toList, [("a".toList, "b".toList)])]

def exT3 : RuleTable :=
  [("Char_".toList, [("a".toList, "b".toList)]),
   ("Char_B".toList, [("c".toList, "d".toList)])]

/-- Mesh whose single group name is a rule key of exT3, used to check that
a mesh whose name matches no prefix is left untouched. -/
def exMeshUntouched : MeshState := { verts := [], groups := [("a".toList, [])] }

/-- Container and ruleset refuting the unrestricted undo round trip: the
container holds a single group c and the ruleset renames b to c. -/
def exC4mesh : MeshState := { verts := [], groups := [("c".toList, [])] }

def exC4rules : RS := [("b".toList, "c".toList)]

/-- Inputs for the round-trip witness. -/
def exC4Wmesh : MeshState :=
  { verts := [], groups := [("a".toList, []), ("b".toList, [])] }

def exC4Wrules : RS := [("a".toList, "x".toList)]

/-- Mesh on which sources A and B carry weights 0.6 and 0.5 on vertex 0. -/
def exC5mesh : MeshState :=
  { verts := [0], groups := [("A".toList, [(0, 3/5)]), ("B".toList, [(0, 1/2)])] }

/-- Names for the mirror checks. -/
def exMirror : List Name := ["L_Arm".toList, "R_Arm".toList, "L_Leg".toList]

/-- Container refuting the unrestricted mirror claim: a member already
carrying the transient token is renamed although it has no counterpart. -/
def exMirrorBad : List Name :=
  ["__swap_temp__R_Arm".toList, "L_Arm".toList, "R_Arm".toList]

/-- Scene with one armature linked to two meshes, the ambiguous topology of
the synchronization precondition. -/
def exC7scene : Scene :=
  { meshes := [{ name := "M1".toList, groups := ["a".toList], arms := ["S".toList] },
               { name := "M2".toList, groups := ["a".toList], arms := ["S".toList] }],
    armatures := [{ name := "S".toList, bones := ["a".toList] }] }

/-- Ruleset with three rules, for the key edit checks. -/
def exC8rules : RS :=
  [("a".toList, "x".toList), ("b".toList, "y".toList), ("c".toList, "z".toList)]

/-- Preset stores for the delete checks. -/
def exC9store : List (Name × RuleTable) :=
  [("Default".toList, []), ("A".toList, [])]

def exC9single : List (Name × RuleTable) := [("A".toList, [])]

-- ============================
-- Claim theorems
-- ============================

/-- C1 (amended): the weight renormalization pass runs once at the end of
each merge performed by an apply call, that is, as many times as there are
targets with two or more matching source groups, and not once per apply
call. -/
theorem c1_norm_pass_runs_once_per_merge (s : MeshState) (r : RS) :
    normPassCount s r
      = ((vgBuckets s r).filter (fun b => decide (2 ≤ b.2.length))).length :=
  normPassCount_eq_mergeBuckets s r

/-- C1 counterexample: an apply call performing two merges runs the
renormalization pass twice, not exactly once as the claim states. -/
theorem c1_counterexample :
    1 ≤ ((vgBuckets exC1mesh exC1rules).filter (fun b => decide (2 ≤ b.2.length))).length
    ∧ normPassCount exC1mesh exC1rules ≠ 1 := by
  constructor
  · decide
  · decide

/-- C2: with synchronization enabled, renaming the bones of an armature
linked to a mesh renames the bones but leaves the vertex groups of the
linked mesh untouched, because the propagation block of
OBJECT_OT_rename_bones.execute is commented out in the source. The claim
and the operator docstring say the linked vertex groups are renamed as
well. -/
theorem c2_rename_bones_does_not_sync_mesh_groups :
    rename_bones_execute exC2scene ["Arm".toList] exCatchAll true
      = ({ meshes := [{ name := "M".toList, groups := ["a".toList],
                        arms := ["Arm".toList] }],
           armatures := [{ name := "Arm".toList, bones := ["b".toList] }] },
         OpStatus.finished) := by
  decide

/-- C3: prefix resolution takes the first stored non-empty prefix that is
a case-insensitive prefix of the container name, falling back to the empty
prefix and otherwise selecting nothing; the find-based loop agrees with
the spec description, Char_Body selects Char_ under both stored orders of
the prefixes Char_ and the empty string, first match beats longest match,
and a container matching no ruleset is left untouched. -/
theorem c3_matched_pfx_first_match :
    (∀ (nm : Name) (tbl : RuleTable), matchedPfx nm tbl = matchedPfxSpec nm tbl)
    ∧ matchedPfx "Char_Body".toList exT1 = some "Char_".toList
    ∧ matchedPfx "Char_Body".toList exT2 = some "Char_".toList
    ∧ matchedPfx "Char_Body".toList exT3 = some "Char_".toList
    ∧ matchedPfx "Xyz".toList exT3 = none
    ∧ apply_rename_rules "Xyz".toList exMeshUntouched exT3 = exMeshUntouched := by
  refine ⟨matchedPfx_eq_spec, ?_, ?_, ?_, ?_, ?_⟩
  · decide
  · decide
  · decide
  · decide
  · decide

/-- C4 (amended): applying a ruleset without merges and then undoing it
restores every group name, provided additionally that no rule target
collides with the name of a different original member of the container
(the dictionary invariants, unique keys and host-unique group names, are
assumed as usual). -/
theorem c4_apply_undo_roundtrip (s : MeshState) (r : RS)
    (hnames : (vgNames s).Nodup)
    (hvals : (r.map Prod.snd).Nodup)
    (hsafe : ∀ n ∈ vgNames s, ∀ p ∈ r, p.2 = n → p.1 = n) :
    vgNames (undoRules (applyRules s r) r) = vgNames s := by
  rw [vgNames_undoRules, vgNames_applyRules s r hnames hvals hsafe, List.map_map]
  have hpt : ∀ m ∈ vgNames s,
      ((fun n => match alookup (reverseRules r) n with
        | some o => o
        | none => n) ∘ (fun n => (alookup r n).getD n)) m = (fun x => x) m := by
    intro m hm
    show (match alookup (reverseRules r) ((alookup r m).getD m) with
        | some o => o
        | none => (alookup r m).getD m) = m
    cases h : alookup r m with
    | some t =>
        simp only [h, Option.getD_some]
        rw [reverseRules_eq r hvals,
          alookup_rev_of_mem hvals (mem_of_alookup_eq_some h)]
    | none =>
        simp only [h, Option.getD_none]
        rw [reverseRules_eq r hvals, alookup_rev_none (by
          intro p hp hc
          have hkey := hsafe m hm p hp hc
          have hmk : m ∈ keysOf r := by
            rw [← hkey]
            exact List.mem_map_of_mem Prod.fst hp
          exact ((alookup_eq_none r m).mp h) hmk)]
  rw [mapCongrMem _ _ _ hpt]
  simp

/-- C4 witness: the round trip at a concrete container and merge-free
ruleset. -/
theorem c4_witness :
    ((vgNames exC4Wmesh).Nodup
      ∧ (exC4Wrules.map Prod.snd).Nodup
      ∧ (∀ n ∈ vgNames exC4Wmesh, ∀ p ∈ exC4Wrules, p.2 = n → p.1 = n))
    ∧ vgNames (undoRules (applyRules exC4Wmesh exC4Wrules) exC4Wrules)
        = vgNames exC4Wmesh :=
  ⟨⟨by decide, by decide, by decide⟩,
    c4_apply_undo_roundtrip exC4Wmesh exC4Wrules
      (by decide) (by decide) (by decide)⟩

/-- C4 counterexample: with container holding only the group c and the
single rule b to c, the apply leaves the container untouched and the undo
renames c back to b, so the round trip does not restore the original
names even though the ruleset contains no merges. -/
theorem c4_counterexample :
    vgNames (undoRules (applyRules exC4mesh exC4rules) exC4rules)
      ≠ vgNames exC4mesh := by
  decide

/-- C5: merging source groups into a target accumulates, for every vertex,
the sum of the source weights with missing weights read as 0, into the
newly created target group placed at the end of the collection; the
subsequent normalization pass leaves names in place, rescales every weight
of a vertex by the reciprocal of its total exactly when the total exceeds
1, leaves it untouched otherwise, and brings such totals back to exactly
1. -/
theorem c5_merge_weight_semantics (s : MeshState) (t : Name) (srcs : List Name)
    (v : Nat) (hs : srcs ≠ []) (hv : v ∈ s.verts) :
    merge_vertex_groups s t srcs = normalizePass (mergeAccum s t srcs)
    ∧ groupNameAt (mergeAccum s t srcs) ((mergeAccum s t srcs).groups.length - 1)
        = some t
    ∧ groupWeightAt (mergeAccum s t srcs) ((mergeAccum s t srcs).groups.length - 1) v
        = preMergeSum s srcs v
    ∧ (∀ i : Nat, groupNameAt (merge_vertex_groups s t srcs) i
        = groupNameAt (mergeAccum s t srcs) i)
    ∧ (∀ i : Nat, groupWeightAt (merge_vertex_groups s t srcs) i v
        = if 1 < totalWeight (mergeAccum s t srcs) v
          then groupWeightAt (mergeAccum s t srcs) i v
            / totalWeight (mergeAccum s t srcs) v
          else groupWeightAt (mergeAccum s t srcs) i v)
    ∧ (1 < totalWeight (mergeAccum s t srcs) v
        → totalWeight (merge_vertex_groups s t srcs) v = 1) := by
  have hmv : merge_vertex_groups s t srcs = normalizePass (mergeAccum s t srcs) := by
    rw [merge_vertex_groups, if_neg hs]
  have hv' : v ∈ (mergeAccum s t srcs).verts := hv
  refine ⟨hmv, mergeAccum_last_name s t srcs,
    mergeAccum_last_weight s t srcs v hv, ?_, ?_, ?_⟩
  · intro i
    rw [hmv]
    exact groupNameAt_normalizePass _ i
  · intro i
    rw [hmv]
    exact groupWeightAt_normalizePass _ i v hv'
  · intro h1
    rw [hmv]
    exact totalWeight_normalizePass _ v hv' h1

/-- C5 witness: merging A and B into T where vertex 0 carries 0.6 in A and
0.5 in B yields the pre-normalization weight 1.1 in the target group. -/
theorem c5_witness :
    ((["A".toList, "B".toList] : List Name) ≠ [] ∧ 0 ∈ exC5mesh.verts)
    ∧ (merge_vertex_groups exC5mesh "T".toList ["A".toList, "B".toList]
          = normalizePass (mergeAccum exC5mesh "T".toList ["A".toList, "B".toList])
        ∧ groupNameAt (mergeAccum exC5mesh "T".toList ["A".toList, "B".toList])
            ((mergeAccum exC5mesh "T".toList ["A".toList, "B".toList]).groups.length - 1)
            = some "T".toList
        ∧ groupWeightAt (mergeAccum exC5mesh "T".toList ["A".toList, "B".toList])
            ((mergeAccum exC5mesh "T".toList ["A".toList, "B".toList]).groups.length - 1) 0
            = preMergeSum exC5mesh ["A".toList, "B".toList] 0
        ∧ (∀ i : Nat, groupNameAt
              (merge_vertex_groups exC5mesh "T".toList ["A".toList, "B".toList]) i
            = groupNameAt (mergeAccum exC5mesh "T".toList ["A".toList, "B".toList]) i)
        ∧ (∀ i : Nat, groupWeightAt
              (merge_vertex_groups exC5mesh "T".toList ["A".toList, "B".toList]) i 0
            = if 1 < totalWeight (mergeAccum exC5mesh "T".toList ["A".toList, "B".toList]) 0
              then groupWeightAt
                  (mergeAccum exC5mesh "T".toList ["A".toList, "B".toList]) i 0
                / totalWeight (mergeAccum exC5mesh "T".toList ["A".toList, "B".toList]) 0
              else groupWeightAt
                  (mergeAccum exC5mesh "T".toList ["A".toList, "B".toList]) i 0)
        ∧ (1 < totalWeight (mergeAccum exC5mesh "T".toList ["A".toList, "B".toList]) 0
            → totalWeight
                (merge_vertex_groups exC5mesh "T".toList ["A".toList, "B".toList]) 0 = 1))
    ∧ preMergeSum exC5mesh ["A".toList, "B".toList] 0 = 11/10 := by
  refine ⟨⟨by decide, by decide⟩,
    c5_merge_weight_semantics exC5mesh "T".toList ["A".toList, "B".toList] 0
      (by decide) (by decide), ?_⟩
  simp +decide [preMergeSum, exC5mesh, wlookup]
  norm_num

/-- C6 (amended): on a container with pairwise distinct member names, none
of which begins with the transient token, mirror swaps the names of
exactly the member pairs carrying both the L and the R form of a suffix
and leaves every member without a counterpart unchanged. -/
theorem c6_mirror_swaps_exact_pairs (names : List Name) (hnd : names.Nodup)
    (htemp : ∀ n ∈ names, nameStartsWith n swapTempTok = false) :
    mirror_names names = names.map (swapIfPaired names) :=
  mirror_names_eq names hnd htemp

/-- C6 witness: mirror on the names L_Arm, R_Arm, L_Leg swaps the first
two and leaves L_Leg untouched. -/
theorem c6_witness :
    (exMirror.Nodup ∧ (∀ n ∈ exMirror, nameStartsWith n swapTempTok = false))
    ∧ mirror_names exMirror = exMirror.map (swapIfPaired exMirror)
    ∧ mirror_names exMirror = ["R_Arm".toList, "L_Arm".toList, "L_Leg".toList] :=
  ⟨⟨by decide, by decide⟩,
    c6_mirror_swaps_exact_pairs exMirror (by decide) (by decide), by decide⟩

/-- C6 counterexample: with a pre-existing member named
__swap_temp__R_Arm, mirror touches that member although it has no
counterpart, so the claim fails on an unrestricted container. -/
theorem c6_counterexample :
    mirror_names exMirrorBad ≠ exMirrorBad.map (swapIfPaired exMirrorBad) := by
  decide

/-- C7: an armature linked to two meshes is an ambiguous topology, yet
with synchronization enabled OBJECT_OT_rename_bones.execute proceeds,
mutates the bones and reports success, because the rejection branch is
commented out in the source; the claim says the whole batch is rejected
with no mutation. -/
theorem c7_ambiguous_armature_not_rejected :
    get_meshes_from_armatures exC7scene ["S".toList]
      = [("S".toList, ["M1".toList, "M2".toList])]
    ∧ rename_bones_execute exC7scene ["S".toList] exCatchAll true
      = ({ meshes := exC7scene.meshes,
           armatures := [{ name := "S".toList, bones := ["b".toList] }] },
         OpStatus.finished) := by
  constructor
  · decide
  · decide

/-- C8: editing the old-name key of a rule keeps the rule at its position
among its siblings, updating key and value in place, whenever the new key
does not collide with a different existing key; a colliding edit leaves
the ruleset unchanged. -/
theorem c8_edit_rule_preserves_position (d : RS)
    (original w newOriginal newNew : Name)
    (hkeys : (d.map Prod.fst).Nodup)
    (hmem : alookup d original = some w) :
    ((newOriginal = original ∨ alookup d newOriginal = none) →
      update_rule d original w newOriginal newNew
        = d.map (fun kv => if kv.1 = original then (newOriginal, newNew) else kv))
    ∧ ((alookup d newOriginal).isSome ∧ newOriginal ≠ original →
      update_rule d original w newOriginal newNew = d) := by
  constructor
  · intro hfree
    have hfree' : newOriginal = original ∨ newOriginal ∉ d.map Prod.fst := by
      rcases hfree with hf | hf
      · exact Or.inl hf
      · exact Or.inr ((alookup_eq_none d newOriginal).mp hf)
    by_cases hid : newOriginal = original ∧ newNew = w
    · rw [update_rule, if_pos hid]
      rcases hid with ⟨hid1, hid2⟩
      have : ∀ kv ∈ d, kv = (fun kv : Name × Name =>
          if kv.1 = original then (newOriginal, newNew) else kv) kv := by
        intro kv hkv
        show kv = if kv.1 = original then (newOriginal, newNew) else kv
        by_cases hko : kv.1 = original
        · have hv : alookup d kv.1 = some kv.2 := alookup_of_mem hkeys hkv
          rw [hko, hmem] at hv
          rw [if_pos hko, hid1, hid2, ← hko, Option.some.inj hv]
        · rw [if_neg hko]
      rw [show d.map (fun kv =>
          if kv.1 = original then (newOriginal, newNew) else kv)
        = d.map (fun kv => kv) from mapCongrMem d _ _
          (fun kv hkv => (this kv hkv).symm)]
      simp
    · have hnotcol : ¬ ((alookup d newOriginal).isSome ∧ newOriginal ≠ original) := by
        rintro ⟨hsome, hne⟩
        rcases hfree with hf | hf
        · exact hne hf
        · rw [hf] at hsome
          cases hsome
      rw [update_rule, if_neg hid, if_neg hnotcol,
        rename_key_map d original newOriginal hkeys hfree',
        insertOrUpdate_mapped original newOriginal newNew d hkeys hfree'
          (by
            have := mem_of_alookup_eq_some hmem
            exact List.mem_map_of_mem Prod.fst this)]
  · rintro ⟨hsome, hne⟩
    rw [update_rule, if_neg (by rintro ⟨h1, _⟩; exact hne h1), if_pos ⟨hsome, hne⟩]

/-- C8 witness: editing the key b of the ruleset a to x, b to y, c to z
into bb keeps the rule in the middle position, and editing it into the
existing key c is rejected. -/
theorem c8_witness :
    ((exC8rules.map Prod.fst).Nodup
      ∧ alookup exC8rules "b".toList = some "y".toList)
    ∧ update_rule exC8rules "b".toList "y".toList "bb".toList "y".toList
        = [("a".toList, "x".toList), ("bb".toList, "y".toList),
           ("c".toList, "z".toList)]
    ∧ update_rule exC8rules "b".toList "y".toList "c".toList "w".toList
        = exC8rules := by
  refine ⟨⟨by decide, by decide⟩, ?_, ?_⟩
  · have h := (c8_edit_rule_preserves_position exC8rules "b".toList "y".toList
      "bb".toList "y".toList (by decide) (by decide)).1 (by decide)
    rw [h]
    decide
  · exact (c8_edit_rule_preserves_position exC8rules "b".toList "y".toList
      "c".toList "w".toList (by decide) (by decide)).2 ⟨by decide, by decide⟩

/-- C9: deleting the preset named Default is refused even when other
presets exist, and deleting the sole remaining preset is refused; both
refusals leave the store unchanged and cancel the operator. -/
theorem c9_protected_preset_delete {α : Type} (store : List (Name × α))
    (current : Name) (hmem : (alookup store current).isSome) :
    (current = defaultPresetName →
      remove_preset store current = (store, OpStatus.cancelled))
    ∧ (store.length = 1 →
      remove_preset store current = (store, OpStatus.cancelled)) := by
  constructor
  · intro h
    rw [remove_preset, if_pos hmem, if_pos h]
  · intro h
    by_cases hd : current = defaultPresetName
    · rw [remove_preset, if_pos hmem, if_pos hd]
    · rw [remove_preset, if_pos hmem, if_neg hd, if_pos h]

/-- C9 witness: deleting Default from a two-preset store and deleting the
sole preset of a one-preset store are both refused with the store
unchanged. -/
theorem c9_witness :
    ((alookup exC9store "Default".toList).isSome
      ∧ (alookup exC9single "A".toList).isSome)
    ∧ remove_preset exC9store "Default".toList = (exC9store, OpStatus.cancelled)
    ∧ remove_preset exC9single "A".toList = (exC9single, OpStatus.cancelled) :=
  ⟨⟨by decide, by decide⟩,
    (c9_protected_preset_delete exC9store "Default".toList (by decide)).1 rfl,
    (c9_protected_preset_delete exC9single "A".toList (by decide)).2 rfl⟩

/-- C10: on a container with pairwise distinct member names, none of which
begins with the transient token, applying mirror twice restores every
member to its original name. -/
theorem c10_mirror_involutive (names : List Name) (hnd : names.Nodup)
    (htemp : ∀ n ∈ names, nameStartsWith n swapTempTok = false) :
    mirror_names (mirror_names names) = names :=
  mirror_names_involutive names hnd htemp

/-- C10 witness: the double mirror at a concrete container. -/
theorem c10_witness :
    (exMirror.Nodup ∧ (∀ n ∈ exMirror, nameStartsWith n swapTempTok = false))
    ∧ mirror_names (mirror_names exMirror) = exMirror :=
  ⟨⟨by decide, by decide⟩,
    c10_mirror_involutive exMirror (by decide) (by decide)⟩

end VGR
